import Mathlib

/-!
The 100 prisoners simulation (`Source.cpp`).

A shallow embedding of the simulation: the drawer shuffle
(`randomize_box_labels`), one prisoner's search (`prisonner_attempt`), the
trial loop and the run loop of `main`, and the final report.

Conventions of the embedding.

* `uint8` values are natural numbers; every place where the source stores a
  computed value into a `uint8` goes through `u8` (reduction modulo 256).
* The global array `Boxes` is a `List Nat`; reading it outside its bounds is
  the fault `Fault.outOfBounds`.
* Values returned by the random engines are supplied from outside as
  functions `Nat → Nat`: the `k`-th value returned by `random(rng)`.
* Loops that the source does not bound syntactically take a fuel argument and
  report `Fault.outOfFuel` when it runs out.
* `prisonner_attempt` is embedded twice. By value: the record behind the
  iterator goes in and comes out; this is what the trial loop uses. On the
  memory (`prisonner_attempt_mem`): the state is the global array together with
  the whole list of records, every `prisonner->field = ...` is a store through
  the iterator, and `prisonner_attempt_mem_eq` relates the two.
-/

namespace Prisoners

/-- Ways in which a run of the embedded code can fail to produce a value. -/
inductive Fault where
  | outOfFuel
  | outOfBounds
  deriving DecidableEq, Repr

/-- Storing a value into a `uint8`. -/
def u8 (n : Nat) : Nat := n % 256

/-- The record `struct Prisonner` (lines 33-38); the `float success` field only
ever holds `false` or `true`. -/
structure Prisonner where
  success : Bool := false
  remainingAttempts : Nat := 50
  visited : List Nat := []
  deriving DecidableEq, Repr

/-- The local state of `prisonner_attempt`: the record behind the iterator,
the variable `box_explore_id`, and how many values were taken from the random
engine so far. -/
structure Search where
  prisonner : Prisonner
  box_explore_id : Nat
  drawn : Nat
  deriving DecidableEq, Repr

/-- The loop of lines 92-95: while the drawer was already visited, replace it
by a random one. -/
def rerollLoop (random : Nat → Nat) : Nat → Search → Except Fault Search
  | 0, _ => .error .outOfFuel
  | fuel + 1, s =>
    if s.box_explore_id ∈ s.prisonner.visited then
      rerollLoop random fuel
        { s with box_explore_id := u8 (random s.drawn), drawn := s.drawn + 1 }
    else .ok s

/-- The loop of lines 98-115: follow the labels from drawer to drawer. -/
def followLoop (Boxes : List Nat) (prisonnerID : Nat) : Nat → Search → Except Fault Search
  | 0, _ => .error .outOfFuel
  | fuel + 1, s =>
    if s.prisonner.remainingAttempts ≠ 0 ∧ s.box_explore_id ∉ s.prisonner.visited
        ∧ s.prisonner.success = false then
      let logged : Prisonner :=
        { s.prisonner with visited := s.prisonner.visited ++ [s.box_explore_id] }
      match Boxes[s.box_explore_id]? with
      | none => .error .outOfBounds
      | some label =>
        if label = prisonnerID then
          .ok { s with prisonner := { logged with success := true } }
        else
          followLoop Boxes prisonnerID fuel
            { s with
              prisonner := { logged with remainingAttempts := u8 (logged.remainingAttempts + 255) }
              box_explore_id := u8 (label + 255) }
    else .ok s

/-- The loop of lines 89-116. -/
def attemptLoop (Boxes : List Nat) (random : Nat → Nat) (prisonnerID : Nat) :
    Nat → Search → Except Fault Search
  | 0, _ => .error .outOfFuel
  | fuel + 1, s =>
    if s.prisonner.remainingAttempts ≠ 0 ∧ s.prisonner.success = false then
      match rerollLoop random fuel s with
      | .error e => .error e
      | .ok s1 =>
        match followLoop Boxes prisonnerID fuel s1 with
        | .error e => .error e
        | .ok s2 => attemptLoop Boxes random prisonnerID fuel s2
    else .ok s

/-- The body of `prisonner_attempt` (lines 78-117), returning its whole final
local state. -/
def prisonner_attempt_state (fuel : Nat) (Boxes : List Nat) (random : Nat → Nat)
    (prisonner : Prisonner) (prisonnerID : Nat) : Except Fault Search :=
  attemptLoop Boxes random prisonnerID fuel
    { prisonner := prisonner, box_explore_id := u8 (prisonnerID + 255), drawn := 0 }

/-- The function `prisonner_attempt` (lines 78-117): the record it leaves behind. -/
def prisonner_attempt (fuel : Nat) (Boxes : List Nat) (random : Nat → Nat)
    (prisonner : Prisonner) (prisonnerID : Nat) : Except Fault Prisonner :=
  match prisonner_attempt_state fuel Boxes random prisonner prisonnerID with
  | .error e => .error e
  | .ok s => .ok s.prisonner

/-- The function `is_run_failed` (lines 68-75). -/
def is_run_failed : List Prisonner → Bool
  | [] => false
  | i :: rest => if i.success = false then true else is_run_failed rest

/-- The loop of lines 138-146 over the list of prisoners: `seen` are the
records the iterator has passed, the second list starts at the iterator.
`rng k` is the random engine created by the `k`-th call of `prisonner_attempt`
(counted from 0). Returns the list and the final `prisonnerID`. -/
def trialLoop (fuel : Nat) (Boxes : List Nat) (rng : Nat → Nat → Nat) :
    List Prisonner → List Prisonner → Nat → Except Fault (List Prisonner × Nat)
  | seen, [], prisonnerID => .ok (seen, prisonnerID)
  | seen, p :: rest, prisonnerID =>
    match prisonner_attempt fuel Boxes (rng seen.length) p prisonnerID with
    | .error e => .error e
    | .ok p1 =>
      if p1.success = false then .ok (seen ++ p1 :: rest, prisonnerID)
      else trialLoop fuel Boxes rng (seen ++ [p1]) rest (u8 (prisonnerID + 1))

/-- Lines 134-146: a list of 100 fresh records, `prisonnerID = 1`, and the loop. -/
def trial (fuel : Nat) (Boxes : List Nat) (rng : Nat → Nat → Nat) :
    Except Fault (List Prisonner × Nat) :=
  trialLoop fuel Boxes rng [] (List.replicate 100 {}) 1

/-- The loop of lines 53-64. `todo` counts the iterations that remain, `i` is
the loop variable; `random i` is the value returned by `random(rng)` in the
iteration with loop variable `i`. Dereferencing the iterator after advancing it
to or past the end of the pool is the fault `outOfBounds`. -/
def shuffleLoop (random : Nat → Nat) :
    Nat → Nat → List Nat → List Nat → Except Fault (List Nat × List Nat)
  | 0, _, Boxes, labels_avail => .ok (Boxes, labels_avail)
  | todo + 1, i, Boxes, labels_avail =>
    let pos := u8 (random i)
    match labels_avail[pos]? with
    | none => .error .outOfBounds
    | some label =>
      shuffleLoop random todo (i + 1) (Boxes.set i label) (labels_avail.eraseIdx pos)

/-- The function `randomize_box_labels` (lines 41-65), returning the array and
the pool it leaves behind. The pool built by lines 44-46 is `[1, ..., 100]`. -/
def randomize_box_labels_state (random : Nat → Nat) (Boxes : List Nat) :
    Except Fault (List Nat × List Nat) :=
  shuffleLoop random 100 0 Boxes (List.range' 1 100)

/-- The function `randomize_box_labels` (lines 41-65): the new contents of the
global array `Boxes`. -/
def randomize_box_labels (random : Nat → Nat) (Boxes : List Nat) : Except Fault (List Nat) :=
  match randomize_box_labels_state random Boxes with
  | .error e => .error e
  | .ok r => .ok r.1

/-- The counters of lines 125-127. The `int` counters are unbounded naturals
here; `counters_small` shows that they stay far below `2^31`. -/
structure Counters where
  success_runs : Nat := 0
  failed_runs : Nat := 0
  tries : Nat := 0
  deriving DecidableEq, Repr

/-- One line written to the console by lines 152 and 158. -/
inductive Line where
  | failed (run : Nat) (prisonnerID : Nat)
  | success (run : Nat)
  deriving DecidableEq, Repr

/-- What the random engines created during one run return: `shuffle` for the
engine of `randomize_box_labels`, `search k` for the engine of the `k`-th call
of `prisonner_attempt`. -/
structure Entropy where
  shuffle : Nat → Nat
  search : Nat → Nat → Nat

/-- The state that the run loop of `main` carries: the global array, the
counters and the console output so far. -/
structure Sim where
  Boxes : List Nat := List.replicate 100 0
  counters : Counters := {}
  out : List Line := []
  deriving DecidableEq, Repr

/-- Lines 134-159 of the run loop body: the trial on the current contents of
`Boxes` and the recording of its outcome. -/
def trialBody (fuel : Nat) (rng : Nat → Nat → Nat) (run : Nat) (w : Sim) : Except Fault Sim :=
  match trial fuel w.Boxes rng with
  | .error err => .error err
  | .ok (prisonners, prisonnerID) =>
    if is_run_failed prisonners then
      .ok { w with
            counters := { w.counters with
              failed_runs := w.counters.failed_runs + 1
              tries := w.counters.tries + prisonnerID }
            out := w.out ++ [Line.failed run prisonnerID] }
    else
      .ok { w with
            counters := { w.counters with success_runs := w.counters.success_runs + 1 }
            out := w.out ++ [Line.success run] }

/-- The body of the run loop (lines 132-159). -/
def runBody (fuel : Nat) (e : Entropy) (run : Nat) (w : Sim) : Except Fault Sim :=
  match randomize_box_labels e.shuffle w.Boxes with
  | .error err => .error err
  | .ok Boxes => trialBody fuel e.search run { w with Boxes := Boxes }

/-- The run loop (lines 130-160) with `todo` iterations left and loop variable
`run`; `entropy r` is what the random engines of run `r` return. -/
def runLoop (fuel : Nat) (entropy : Nat → Entropy) : Nat → Nat → Sim → Except Fault Sim
  | 0, _, w => .ok w
  | todo + 1, run, w =>
    match runBody fuel (entropy run) run w with
    | .error err => .error err
    | .ok w1 => runLoop fuel entropy todo (run + 1) w1

/-- The value of a `float` division `float(a) / float(b)` of two non-negative
integers, up to rounding: `0/0` is NaN, `a/0` with `a > 0` is infinity,
otherwise the quotient of `a` by `b`. -/
inductive FloatQuot where
  | nan
  | inf
  | quot (num den : Nat)
  deriving DecidableEq, Repr

/-- Float division of two non-negative integers. -/
def fdiv (a b : Nat) : FloatQuot :=
  if b = 0 then (if a = 0 then .nan else .inf) else .quot a b

/-- The figures printed by lines 163-167; `success_rate` is the quotient that
line 166 multiplies by 100. -/
structure Report where
  runs : Nat
  success : Nat
  failed : Nat
  success_rate : FloatQuot
  average : FloatQuot
  deriving DecidableEq, Repr

/-- Lines 163-167. -/
def report (run_counts : Nat) (c : Counters) : Report :=
  { runs := run_counts
    success := c.success_runs
    failed := c.failed_runs
    success_rate := fdiv c.success_runs run_counts
    average := fdiv c.tries c.failed_runs }

/-- The constant of line 122. -/
def run_counts : Nat := 10000

/-- The function `main` for a given number of runs: the run loop from a zeroed
global array and zeroed counters, then the report. -/
def mainWith (fuel : Nat) (entropy : Nat → Entropy) (n : Nat) : Except Fault (Sim × Report) :=
  match runLoop fuel entropy n 1 {} with
  | .error err => .error err
  | .ok w => .ok (w, report n w.counters)

/-- The function `main` (lines 119-168). -/
def main (fuel : Nat) (entropy : Nat → Entropy) : Except Fault (Sim × Report) :=
  mainWith fuel entropy run_counts

/-! ## Reference notions used to state the properties -/

/-- The array holds each of the labels 1..100 exactly once. -/
def IsDrawerArray (Boxes : List Nat) : Prop := Boxes.Perm (List.range' 1 100)

instance (Boxes : List Nat) : Decidable (IsDrawerArray Boxes) :=
  inferInstanceAs (Decidable (Boxes.Perm (List.range' 1 100)))

/-- The map on drawer indices `i ↦ Boxes[i] - 1`. -/
def nextDrawer (Boxes : List Nat) (i : Nat) : Nat := Boxes.getD i 0 - 1

/-- Search for the first `k` in `[k, k + n)` with `f^[k] s = s`. -/
def firstReturn (f : Nat → Nat) (s : Nat) : Nat → Nat → Option Nat
  | 0, _ => none
  | n + 1, k => if f^[k] s = s then some k else firstReturn f s n (k + 1)

/-- The length of the cycle through drawer `i`: the least `L` in `1..100` with
`(nextDrawer Boxes)^[L] i = i` (and 0 if there is none). -/
def cycleLength (Boxes : List Nat) (i : Nat) : Nat :=
  (firstReturn (nextDrawer Boxes) i 100 1).getD 0

/-- The state of the search after `k` unsuccessful openings along the orbit of
drawer `s`. -/
def walkState (B : List Nat) (s k : Nat) : Search :=
  { prisonner :=
      { success := false
        remainingAttempts := 50 - k
        visited := (List.range k).map fun j => (nextDrawer B)^[j] s }
    box_explore_id := (nextDrawer B)^[k] s
    drawn := 0 }

/-- The state of the search when the `L`-th opening along the orbit of drawer
`s` finds the label. -/
def foundState (B : List Nat) (s L : Nat) : Search :=
  { prisonner :=
      { success := true
        remainingAttempts := 51 - L
        visited := (List.range L).map fun j => (nextDrawer B)^[j] s }
    box_explore_id := (nextDrawer B)^[L - 1] s
    drawn := 0 }

/-- The final state of the cycle-following search of prisoner `id`, read off
the cycle of drawer `id - 1`. -/
def cycleSearch (B : List Nat) (id : Nat) : Search :=
  if cycleLength B (id - 1) ≤ 50 then foundState B (id - 1) (cycleLength B (id - 1))
  else walkState B (id - 1) 50

/-- Drawer `t` lies on the cycle through drawer `s`. -/
def OnCycle (B : List Nat) (s t : Nat) : Prop := ∃ j, (nextDrawer B)^[j] s = t

/-- The search of prisoner `id` with random engine `random` ends with success. -/
def SearchSucceeds (fuel : Nat) (B : List Nat) (random : Nat → Nat) (id : Nat) : Prop :=
  ∃ p, prisonner_attempt fuel B random { success := false, remainingAttempts := 50, visited := [] }
    id = .ok p ∧ p.success = true

/-- The search of prisoner `id` with random engine `random` ends without success. -/
def SearchFails (fuel : Nat) (B : List Nat) (random : Nat → Nat) (id : Nat) : Prop :=
  ∃ p, prisonner_attempt fuel B random { success := false, remainingAttempts := 50, visited := [] }
    id = .ok p ∧ p.success = false

/-- The draws of a shuffle are admissible: the `i`-th lies in `[0, 99 - i]`. -/
def AdmissibleDraws (random : Nat → Nat) : Prop := ∀ i, i < 100 → random i ≤ 99 - i

/-- The labels that the shuffle takes from the pool, in the order in which it
stores them. -/
def shufflePicks (random : Nat → Nat) : Nat → Nat → List Nat → List Nat
  | 0, _, _ => []
  | todo + 1, i, pool =>
    pool.getD (random i) 0 :: shufflePicks random todo (i + 1) (pool.eraseIdx (random i))

/-- The draws of the iterations `i, ..., i + todo - 1` are inside the pool,
which holds `todo` labels at iteration `i`. -/
def AdmissibleFrom (random : Nat → Nat) (i todo : Nat) : Prop :=
  ∀ j, j < todo → random (i + j) < todo - j

/-- The number of console lines that report a failed run. -/
def failedLines : List Line → Nat
  | [] => 0
  | Line.failed _ _ :: ls => failedLines ls + 1
  | Line.success _ :: ls => failedLines ls

/-- The number of console lines that report a successful run. -/
def successLines : List Line → Nat
  | [] => 0
  | Line.failed _ _ :: ls => successLines ls
  | Line.success _ :: ls => successLines ls + 1

/-- The sum of the ordinals reported by the lines of failed runs. -/
def ordinalSum : List Line → Nat
  | [] => 0
  | Line.failed _ k :: ls => k + ordinalSum ls
  | Line.success _ :: ls => ordinalSum ls

/-- Random engines that always return 0, for every run. -/
def zeroEntropy : Nat → Entropy := fun _ => { shuffle := fun _ => 0, search := fun _ _ => 0 }

/-- The test array of the specification: two 2-cycles at the front, fixed
points after, `[2,1,4,3,5,6,...,100]`. -/
def exampleBoxes : List Nat := [2, 1, 4, 3] ++ List.range' 5 96

/-- The test array of the specification with one cycle of length 51 through
drawers 0..50 and fixed points after, `[2,3,...,51,1,52,...,100]`. -/
def longCycleBoxes : List Nat := List.range' 2 50 ++ [1] ++ List.range' 52 49

/-- A freshly constructed record (lines 35-37). -/
def freshPrisonner : Prisonner := { success := false, remainingAttempts := 50, visited := [] }

/-- The first `k` drawers of the orbit of `s`. -/
def orbitPrefix (B : List Nat) (s k : Nat) : List Nat :=
  (List.range k).map fun j => (nextDrawer B)^[j] s

/-- The bookkeeping of a record: no drawer is logged twice, every logged drawer
but a successful one has cost one attempt of the 50, a success leaves at least
one attempt unused, and the counter never exceeds 50. -/
def Accounted (p : Prisonner) : Prop :=
  p.visited.Nodup ∧
  p.remainingAttempts + p.visited.length = 50 + (if p.success = true then 1 else 0) ∧
  (p.success = true → p.remainingAttempts ≠ 0) ∧
  p.remainingAttempts ≤ 50

/-- An array in which every prisoner finds the label 2 in every drawer. -/
def constantBoxes : List Nat := List.replicate 100 2

/-- The Search Policy as the specification words it (section 4.2): start at
drawer `identity - 1`; repeatedly mark the current index visited, open it and
decrement the remaining attempts; if the label found equals the identity,
succeed and stop, otherwise move to drawer `label - 1`; stop with failure once
the attempts reach zero. Returns the success flag and the visited indices. -/
def specSearchPolicy (Boxes : List Nat) (identity : Nat) : Nat → Nat → List Nat → Bool × List Nat
  | 0, _, visited => (false, visited)
  | attempts + 1, index, visited =>
    if Boxes.getD index 0 = identity then (true, visited ++ [index])
    else specSearchPolicy Boxes identity attempts (Boxes.getD index 0 - 1) (visited ++ [index])

/-- The pool that the shuffle leaves after `todo` iterations. -/
def shuffleRest (random : Nat → Nat) : Nat → Nat → List Nat → List Nat
  | 0, _, pool => pool
  | todo + 1, i, pool => shuffleRest random todo (i + 1) (pool.eraseIdx (random i))

/-- The draws of the iterations `i, ..., i + todo - 1` are inside a pool that
holds `size` labels at iteration `i`. -/
def DrawsInside (random : Nat → Nat) (i todo size : Nat) : Prop :=
  ∀ j, j < todo → random (i + j) < size - j

/-- Ways in which a run of the instrumented code stops without a value: out of
fuel, or one of the unsafe steps it watches for. -/
inductive Trap where
  | outOfFuel
  | indexOutOfRange
  | wrapBelowZero
  | decrementAtZero
  | idAbove101
  deriving DecidableEq, Repr

/-- The loop of lines 98-115 as `followLoop`, instrumented: it stops with a trap
when `Boxes` is read outside `0..99`, when `remainingAttempts` is decremented at
0, and when `Boxes[box_explore_id] - 1` is computed from the label 0. -/
def followLoopChecked (Boxes : List Nat) (prisonnerID : Nat) :
    Nat → Search → Except Trap Search
  | 0, _ => .error .outOfFuel
  | fuel + 1, s =>
    if s.prisonner.remainingAttempts ≠ 0 ∧ s.box_explore_id ∉ s.prisonner.visited
        ∧ s.prisonner.success = false then
      let logged : Prisonner :=
        { s.prisonner with visited := s.prisonner.visited ++ [s.box_explore_id] }
      if 100 ≤ s.box_explore_id then .error .indexOutOfRange
      else
        match Boxes[s.box_explore_id]? with
        | none => .error .indexOutOfRange
        | some label =>
          if label = prisonnerID then
            .ok { s with prisonner := { logged with success := true } }
          else if logged.remainingAttempts = 0 then .error .decrementAtZero
          else if label = 0 then .error .wrapBelowZero
          else
            followLoopChecked Boxes prisonnerID fuel
              { s with
                prisonner :=
                  { logged with remainingAttempts := u8 (logged.remainingAttempts + 255) }
                box_explore_id := u8 (label + 255) }
    else .ok s

/-- The loop of lines 89-116 as `attemptLoop`, over the instrumented follow
loop. -/
def attemptLoopChecked (Boxes : List Nat) (random : Nat → Nat) (prisonnerID : Nat) :
    Nat → Search → Except Trap Search
  | 0, _ => .error .outOfFuel
  | fuel + 1, s =>
    if s.prisonner.remainingAttempts ≠ 0 ∧ s.prisonner.success = false then
      match rerollLoop random fuel s with
      | .error _ => .error .outOfFuel
      | .ok s1 =>
        match followLoopChecked Boxes prisonnerID fuel s1 with
        | .error e => .error e
        | .ok s2 => attemptLoopChecked Boxes random prisonnerID fuel s2
    else .ok s

/-- The function `prisonner_attempt`, instrumented: it also stops with a trap
when `prisonnerID - 1` is computed from the identity 0. -/
def prisonner_attempt_checked (fuel : Nat) (Boxes : List Nat) (random : Nat → Nat)
    (prisonner : Prisonner) (prisonnerID : Nat) : Except Trap Prisonner :=
  if prisonnerID = 0 then .error .wrapBelowZero
  else
    match attemptLoopChecked Boxes random prisonnerID fuel
        { prisonner := prisonner, box_explore_id := u8 (prisonnerID + 255), drawn := 0 } with
    | .error e => .error e
    | .ok s => .ok s.prisonner

/-- The loop of lines 138-146 as `trialLoop`, instrumented: it stops with a
trap when `prisonnerID++` would pass 101. -/
def trialLoopChecked (fuel : Nat) (Boxes : List Nat) (rng : Nat → Nat → Nat) :
    List Prisonner → List Prisonner → Nat → Except Trap (List Prisonner × Nat)
  | seen, [], prisonnerID => .ok (seen, prisonnerID)
  | seen, p :: rest, prisonnerID =>
    match prisonner_attempt_checked fuel Boxes (rng seen.length) p prisonnerID with
    | .error e => .error e
    | .ok p1 =>
      if p1.success = false then .ok (seen ++ p1 :: rest, prisonnerID)
      else if 101 < prisonnerID + 1 then .error .idAbove101
      else trialLoopChecked fuel Boxes rng (seen ++ [p1]) rest (u8 (prisonnerID + 1))

/-- Lines 134-146 as `trial`, instrumented. -/
def trialChecked (fuel : Nat) (Boxes : List Nat) (rng : Nat → Nat → Nat) :
    Except Trap (List Prisonner × Nat) :=
  trialLoopChecked fuel Boxes rng [] (List.replicate 100 {}) 1

/-- The instrumented run and the run of the model end the same way: both with
the same value, which satisfies `P`, or both out of fuel. -/
def SafeAgree {α : Type} (P : α → Prop) (c : Except Trap α) (u : Except Fault α) : Prop :=
  (∃ a, c = .ok a ∧ u = .ok a ∧ P a) ∨ (c = .error .outOfFuel ∧ u = .error .outOfFuel)

/-- The array has 100 entries, all of them labels in `[1, 100]`. -/
def LabelsInRange (Boxes : List Nat) : Prop :=
  Boxes.length = 100 ∧ ∀ l ∈ Boxes, 1 ≤ l ∧ l ≤ 100

/-- The memory that `prisonner_attempt` can reach: the global array `Boxes`
(line 31) and the list `prisonners` of `main` (line 134), into which its
iterator argument points. -/
structure Memory where
  Boxes : List Nat
  prisonners : List Prisonner
  deriving DecidableEq, Repr

/-- The state of `prisonner_attempt` run on the memory: the memory itself and
the local variables `box_explore_id` and the count of values taken from the
random engine. -/
structure MemSearch where
  mem : Memory
  box_explore_id : Nat
  drawn : Nat
  deriving DecidableEq, Repr

/-- An assignment through the iterator: `*prisonner = p`. -/
def Memory.store (m : Memory) (prisonner : Nat) (p : Prisonner) : Memory :=
  { m with prisonners := m.prisonners.set prisonner p }

/-- The loop of lines 92-95 on the memory; `prisonner` is the position the
iterator points to, and dereferencing an iterator that points to no record is
the fault `outOfBounds`. -/
def rerollLoopMem (random : Nat → Nat) (prisonner : Nat) :
    Nat → MemSearch → Except Fault MemSearch
  | 0, _ => .error .outOfFuel
  | fuel + 1, s =>
    match s.mem.prisonners[prisonner]? with
    | none => .error .outOfBounds
    | some p =>
      if s.box_explore_id ∈ p.visited then
        rerollLoopMem random prisonner fuel
          { s with box_explore_id := u8 (random s.drawn), drawn := s.drawn + 1 }
      else .ok s

/-- The loop of lines 98-115 on the memory: every `prisonner->field = ...` is a
store through the iterator, `Boxes[box_explore_id]` is a read of the global
array. -/
def followLoopMem (prisonner : Nat) (prisonnerID : Nat) :
    Nat → MemSearch → Except Fault MemSearch
  | 0, _ => .error .outOfFuel
  | fuel + 1, s =>
    match s.mem.prisonners[prisonner]? with
    | none => .error .outOfBounds
    | some p =>
      if p.remainingAttempts ≠ 0 ∧ s.box_explore_id ∉ p.visited ∧ p.success = false then
        let logged : Prisonner := { p with visited := p.visited ++ [s.box_explore_id] }
        let m1 := s.mem.store prisonner logged
        match m1.Boxes[s.box_explore_id]? with
        | none => .error .outOfBounds
        | some label =>
          if label = prisonnerID then
            .ok { s with mem := m1.store prisonner { logged with success := true } }
          else
            followLoopMem prisonner prisonnerID fuel
              { s with
                mem := m1.store prisonner
                  { logged with remainingAttempts := u8 (logged.remainingAttempts + 255) }
                box_explore_id := u8 (label + 255) }
      else .ok s

/-- The loop of lines 89-116 on the memory. -/
def attemptLoopMem (random : Nat → Nat) (prisonner : Nat) (prisonnerID : Nat) :
    Nat → MemSearch → Except Fault MemSearch
  | 0, _ => .error .outOfFuel
  | fuel + 1, s =>
    match s.mem.prisonners[prisonner]? with
    | none => .error .outOfBounds
    | some p =>
      if p.remainingAttempts ≠ 0 ∧ p.success = false then
        match rerollLoopMem random prisonner fuel s with
        | .error e => .error e
        | .ok s1 =>
          match followLoopMem prisonner prisonnerID fuel s1 with
          | .error e => .error e
          | .ok s2 => attemptLoopMem random prisonner prisonnerID fuel s2
      else .ok s

/-- The function `prisonner_attempt` (lines 78-117) as a transformation of the
memory: called with the iterator `prisonner` and the identity `prisonnerID`, it
returns the memory it leaves behind. -/
def prisonner_attempt_mem (fuel : Nat) (random : Nat → Nat) (mem : Memory)
    (prisonner : Nat) (prisonnerID : Nat) : Except Fault Memory :=
  match attemptLoopMem random prisonner prisonnerID fuel
      { mem := mem, box_explore_id := u8 (prisonnerID + 255), drawn := 0 } with
  | .error e => .error e
  | .ok s => .ok s.mem

/-- The memory `mem` with the record at the iterator replaced by the record of
a by-value search state, and that state's local variables. -/
def Search.onMemory (t : Search) (mem : Memory) (prisonner : Nat) : MemSearch :=
  { mem := mem.store prisonner t.prisonner
    box_explore_id := t.box_explore_id
    drawn := t.drawn }

/-! ## Drawer arrays and their cycles -/

theorem u8_of_lt {n : Nat} (h : n < 256) : u8 n = n := Nat.mod_eq_of_lt h

theorem u8_pred {n : Nat} (h1 : 1 ≤ n) (h2 : n ≤ 256) : u8 (n + 255) = n - 1 := by
  unfold u8; omega

theorem IsDrawerArray.length_eq {B : List Nat} (h : IsDrawerArray B) : B.length = 100 := by
  have := List.Perm.length_eq h
  simpa using this

theorem IsDrawerArray.nodup {B : List Nat} (h : IsDrawerArray B) : B.Nodup :=
  (List.Perm.nodup_iff h).mpr (List.nodup_range' 1 100)

theorem IsDrawerArray.mem_iff {B : List Nat} (h : IsDrawerArray B) (l : Nat) :
    l ∈ B ↔ 1 ≤ l ∧ l ≤ 100 := by
  rw [List.Perm.mem_iff h, List.mem_range']
  constructor
  · rintro ⟨i, hi, rfl⟩; omega
  · rintro ⟨h1, h2⟩; exact ⟨l - 1, by omega, by omega⟩

/-- Reading a drawer of a drawer array gives a label in `1..100`. -/
theorem IsDrawerArray.read {B : List Nat} (h : IsDrawerArray B) {i : Nat} (hi : i < 100) :
    ∃ l, B[i]? = some l ∧ 1 ≤ l ∧ l ≤ 100 := by
  have hlen := h.length_eq
  have hi' : i < B.length := by omega
  refine ⟨B[i], List.getElem?_eq_getElem hi', ?_⟩
  exact (h.mem_iff _).mp (List.getElem_mem hi')

theorem nextDrawer_of_read {B : List Nat} {i l : Nat} (h : B[i]? = some l) :
    nextDrawer B i = l - 1 := by
  unfold nextDrawer
  rw [List.getD_eq_getElem?_getD, h]; rfl

theorem IsDrawerArray.nextDrawer_lt {B : List Nat} (h : IsDrawerArray B) {i : Nat}
    (hi : i < 100) : nextDrawer B i < 100 := by
  obtain ⟨l, hl, h1, h2⟩ := h.read hi
  rw [nextDrawer_of_read hl]; omega

theorem IsDrawerArray.nextDrawer_inj {B : List Nat} (h : IsDrawerArray B) {i j : Nat}
    (hi : i < 100) (hj : j < 100) (e : nextDrawer B i = nextDrawer B j) : i = j := by
  obtain ⟨l, hl, h1, h2⟩ := h.read hi
  obtain ⟨m, hm, h3, h4⟩ := h.read hj
  rw [nextDrawer_of_read hl, nextDrawer_of_read hm] at e
  have hlm : l = m := by omega
  subst hlm
  have hlen := h.length_eq
  have hi' : i < B.length := by omega
  have hj' : j < B.length := by omega
  rw [List.getElem?_eq_getElem hi'] at hl
  rw [List.getElem?_eq_getElem hj'] at hm
  have key : B[i] = B[j] := (Option.some.inj hl).trans (Option.some.inj hm).symm
  exact (List.Nodup.getElem_inj_iff h.nodup).mp key

theorem IsDrawerArray.iterate_lt {B : List Nat} (h : IsDrawerArray B) {s : Nat}
    (hs : s < 100) (k : Nat) : (nextDrawer B)^[k] s < 100 := by
  induction k with
  | zero => simpa using hs
  | succ k ih => rw [Function.iterate_succ_apply']; exact h.nextDrawer_lt ih

theorem IsDrawerArray.iterate_cancel {B : List Nat} (h : IsDrawerArray B) {s : Nat}
    (hs : s < 100) (i d : Nat)
    (e : (nextDrawer B)^[i + d] s = (nextDrawer B)^[i] s) : (nextDrawer B)^[d] s = s := by
  induction i with
  | zero => simpa using e
  | succ i ih =>
    apply ih
    have e' : (nextDrawer B)^[(i + d) + 1] s = (nextDrawer B)^[i + 1] s := by
      rw [← e]; congr 1; omega
    rw [Function.iterate_succ_apply', Function.iterate_succ_apply'] at e'
    exact h.nextDrawer_inj (h.iterate_lt hs _) (h.iterate_lt hs _) e'

/-- Every drawer of a drawer array lies on a cycle of length at most 100. -/
theorem IsDrawerArray.exists_return {B : List Nat} (h : IsDrawerArray B) {s : Nat}
    (hs : s < 100) : ∃ L, 1 ≤ L ∧ L ≤ 100 ∧ (nextDrawer B)^[L] s = s := by
  have hc : (Finset.range 100).card < (Finset.range 101).card := by simp
  obtain ⟨i, hi, j, hj, hne, e⟩ :=
    Finset.exists_ne_map_eq_of_card_lt_of_maps_to hc
      (f := fun k => (nextDrawer B)^[k] s)
      (fun k _ => Finset.mem_range.mpr (h.iterate_lt hs k))
  simp only [Finset.mem_range] at hi hj
  rcases Nat.lt_or_gt_of_ne hne with hlt | hlt
  · refine ⟨j - i, by omega, by omega, h.iterate_cancel hs i (j - i) ?_⟩
    have : i + (j - i) = j := by omega
    rw [this]; exact e.symm
  · refine ⟨i - j, by omega, by omega, h.iterate_cancel hs j (i - j) ?_⟩
    have : j + (i - j) = i := by omega
    rw [this]; exact e


theorem IsDrawerArray.iterate_ne {B : List Nat} (h : IsDrawerArray B) {s : Nat} (hs : s < 100)
    {k : Nat} (hno : ∀ j, 1 ≤ j → j ≤ k → (nextDrawer B)^[j] s ≠ s) {j : Nat} (hj : j < k) :
    (nextDrawer B)^[j] s ≠ (nextDrawer B)^[k] s := by
  intro e
  refine hno (k - j) (by omega) (by omega) (h.iterate_cancel hs j (k - j) ?_)
  have : j + (k - j) = k := by omega
  rw [this]; exact e.symm

theorem followLoop_step {B : List Nat} (h : IsDrawerArray B) {s : Nat} (hs : s < 100)
    {k : Nat} (hk : k < 50) (hno : ∀ j, 1 ≤ j → j ≤ k → (nextDrawer B)^[j] s ≠ s)
    (fuel : Nat) :
    followLoop B (s + 1) (fuel + 1) (walkState B s k) =
      if (nextDrawer B)^[k + 1] s = s then .ok (foundState B s (k + 1))
      else followLoop B (s + 1) fuel (walkState B s (k + 1)) := by
  obtain ⟨l, hl, h1, h2⟩ := h.read (h.iterate_lt hs k)
  have hnext : (nextDrawer B)^[k + 1] s = l - 1 := by
    rw [Function.iterate_succ_apply', nextDrawer_of_read hl]
  have hnotin : (nextDrawer B)^[k] s ∉ (List.range k).map fun j => (nextDrawer B)^[j] s := by
    intro hmem
    obtain ⟨j, hj, e⟩ := List.mem_map.mp hmem
    exact h.iterate_ne hs hno (List.mem_range.mp hj) e
  have hrem : 50 - k ≠ 0 := by omega
  rw [followLoop]
  simp only [walkState, hnotin, hrem, ne_eq, not_false_eq_true, and_self, if_true, hl]
  by_cases hfound : l = s + 1
  · have : (nextDrawer B)^[k + 1] s = s := by rw [hnext]; omega
    simp [hfound, this, foundState, List.range_succ]
  · have : (nextDrawer B)^[k + 1] s ≠ s := by rw [hnext]; omega
    have e1 : u8 (50 - k + 255) = 50 - (k + 1) := by rw [u8_pred (by omega) (by omega)]; omega
    have e2 : u8 (l + 255) = (nextDrawer B)^[k + 1] s := by
      rw [u8_pred (by omega) (by omega), hnext]
    simp only [hfound, this, if_false, e1, e2, List.range_succ, List.map_append, List.map_cons,
      List.map_nil]


/-- No return within the budget: the follow loop stops after 50 openings. -/
theorem followLoop_exhaust {B : List Nat} (h : IsDrawerArray B) {s : Nat} (hs : s < 100)
    (hno : ∀ j, 1 ≤ j → j ≤ 50 → (nextDrawer B)^[j] s ≠ s) :
    ∀ (fuel k : Nat), k ≤ 50 → 51 - k ≤ fuel →
      followLoop B (s + 1) fuel (walkState B s k) = .ok (walkState B s 50) := by
  intro fuel
  induction fuel with
  | zero => intro k hk hf; omega
  | succ fuel ih =>
    intro k hk hf
    rcases Nat.lt_or_ge k 50 with hlt | hge
    · rw [followLoop_step h hs hlt (fun j h1 h2 => hno j h1 (by omega)),
        if_neg (hno (k + 1) (by omega) (by omega))]
      exact ih (k + 1) (by omega) (by omega)
    · have hk50 : k = 50 := by omega
      subst hk50
      rw [followLoop]
      simp [walkState]

/-- First return after `L ≤ 50` steps: the follow loop finds the label at the
`L`-th opening. -/
theorem followLoop_found {B : List Nat} (h : IsDrawerArray B) {s : Nat} (hs : s < 100)
    {L : Nat} (hL : L ≤ 50) (hret : (nextDrawer B)^[L] s = s)
    (hno : ∀ j, 1 ≤ j → j < L → (nextDrawer B)^[j] s ≠ s) :
    ∀ (fuel k : Nat), k < L → L - k ≤ fuel →
      followLoop B (s + 1) fuel (walkState B s k) = .ok (foundState B s L) := by
  intro fuel
  induction fuel with
  | zero => intro k hk hf; omega
  | succ fuel ih =>
    intro k hk hf
    rw [followLoop_step h hs (by omega) (fun j h1 h2 => hno j h1 (by omega))]
    rcases Nat.lt_or_ge (k + 1) L with hlt | hge
    · rw [if_neg (hno (k + 1) (by omega) hlt)]
      exact ih (k + 1) hlt (by omega)
    · have hk1 : k + 1 = L := by omega
      subst hk1
      rw [if_pos hret]

theorem rerollLoop_fresh (random : Nat → Nat) (fuel : Nat) (s : Search)
    (hs : s.box_explore_id ∉ s.prisonner.visited) :
    rerollLoop random (fuel + 1) s = .ok s := by
  rw [rerollLoop, if_neg hs]

/-- The search of prisoner `s + 1` on a drawer array whose orbit of `s` does not
return within 50 steps. -/
theorem attempt_state_exhaust {B : List Nat} (h : IsDrawerArray B) {s : Nat} (hs : s < 100)
    (hno : ∀ j, 1 ≤ j → j ≤ 50 → (nextDrawer B)^[j] s ≠ s)
    (random : Nat → Nat) {fuel : Nat} (hf : 52 ≤ fuel) :
    prisonner_attempt_state fuel B random {} (s + 1) = .ok (walkState B s 50) := by
  obtain ⟨fuel, rfl⟩ : ∃ f, fuel = f + 2 := ⟨fuel - 2, by omega⟩
  have h0 : ({ prisonner := {}, box_explore_id := u8 (s + 1 + 255), drawn := 0 } : Search)
      = walkState B s 0 := by
    have : u8 (s + 1 + 255) = s := by unfold u8; omega
    simp [walkState, this]
  unfold prisonner_attempt_state
  rw [h0, attemptLoop]
  have hc : (walkState B s 0).prisonner.remainingAttempts ≠ 0 ∧
      (walkState B s 0).prisonner.success = false := by simp [walkState]
  rw [if_pos hc, rerollLoop_fresh random fuel _ (by simp [walkState])]
  simp only []
  rw [followLoop_exhaust h hs hno (fuel + 1) 0 (by omega) (by omega)]
  simp only []
  rw [attemptLoop]
  simp [walkState]

/-- The search of prisoner `s + 1` on a drawer array whose orbit of `s` first
returns after `L ≤ 50` steps. -/
theorem attempt_state_found {B : List Nat} (h : IsDrawerArray B) {s : Nat} (hs : s < 100)
    {L : Nat} (hL1 : 1 ≤ L) (hL : L ≤ 50) (hret : (nextDrawer B)^[L] s = s)
    (hno : ∀ j, 1 ≤ j → j < L → (nextDrawer B)^[j] s ≠ s)
    (random : Nat → Nat) {fuel : Nat} (hf : 52 ≤ fuel) :
    prisonner_attempt_state fuel B random {} (s + 1) = .ok (foundState B s L) := by
  obtain ⟨fuel, rfl⟩ : ∃ f, fuel = f + 2 := ⟨fuel - 2, by omega⟩
  have h0 : ({ prisonner := {}, box_explore_id := u8 (s + 1 + 255), drawn := 0 } : Search)
      = walkState B s 0 := by
    have : u8 (s + 1 + 255) = s := by unfold u8; omega
    simp [walkState, this]
  unfold prisonner_attempt_state
  rw [h0, attemptLoop]
  have hc : (walkState B s 0).prisonner.remainingAttempts ≠ 0 ∧
      (walkState B s 0).prisonner.success = false := by simp [walkState]
  rw [if_pos hc, rerollLoop_fresh random fuel _ (by simp [walkState])]
  simp only []
  rw [followLoop_found h hs hL hret hno (fuel + 1) 0 (by omega) (by omega)]
  simp only []
  rw [attemptLoop]
  simp [foundState]

/-! ### The cycle length -/

theorem firstReturn_some {f : Nat → Nat} {s : Nat} :
    ∀ {n k L : Nat}, firstReturn f s n k = some L →
      k ≤ L ∧ L < k + n ∧ f^[L] s = s ∧ ∀ j, k ≤ j → j < L → f^[j] s ≠ s := by
  intro n
  induction n with
  | zero => intro k L h; simp [firstReturn] at h
  | succ n ih =>
    intro k L h
    rw [firstReturn] at h
    by_cases hk : f^[k] s = s
    · rw [if_pos hk] at h
      obtain rfl : k = L := Option.some.inj h
      exact ⟨le_rfl, by omega, hk, fun j h1 h2 => by omega⟩
    · rw [if_neg hk] at h
      obtain ⟨h1, h2, h3, h4⟩ := ih h
      refine ⟨by omega, by omega, h3, fun j hj1 hj2 => ?_⟩
      rcases Nat.eq_or_lt_of_le hj1 with e | hlt
      · subst e; exact hk
      · exact h4 j hlt hj2

theorem firstReturn_none {f : Nat → Nat} {s : Nat} :
    ∀ {n k : Nat}, firstReturn f s n k = none → ∀ j, k ≤ j → j < k + n → f^[j] s ≠ s := by
  intro n
  induction n with
  | zero => intro k _ j h1 h2; omega
  | succ n ih =>
    intro k h j h1 h2
    rw [firstReturn] at h
    by_cases hk : f^[k] s = s
    · rw [if_pos hk] at h; exact absurd h (by simp)
    · rw [if_neg hk] at h
      rcases Nat.eq_or_lt_of_le h1 with e | hlt
      · subst e; exact hk
      · exact ih h j hlt (by omega)

/-- On a drawer array the cycle length is the first return time of the orbit. -/
theorem cycleLength_spec {B : List Nat} (h : IsDrawerArray B) {s : Nat} (hs : s < 100) :
    1 ≤ cycleLength B s ∧ cycleLength B s ≤ 100 ∧
      (nextDrawer B)^[cycleLength B s] s = s ∧
      ∀ j, 1 ≤ j → j < cycleLength B s → (nextDrawer B)^[j] s ≠ s := by
  unfold cycleLength
  cases hfr : firstReturn (nextDrawer B) s 100 1 with
  | none =>
    obtain ⟨L, h1, h2, h3⟩ := h.exists_return hs
    exact absurd h3 (firstReturn_none hfr L h1 (by omega))
  | some L =>
    obtain ⟨h1, h2, h3, h4⟩ := firstReturn_some hfr
    exact ⟨h1, by simp only [Option.getD_some]; omega, h3, h4⟩

/-- The cycle length is the minimal period of the drawer under `nextDrawer`. -/
theorem cycleLength_eq_minimalPeriod {B : List Nat} (h : IsDrawerArray B) {s : Nat}
    (hs : s < 100) : cycleLength B s = Function.minimalPeriod (nextDrawer B) s := by
  obtain ⟨h1, _, h3, h4⟩ := cycleLength_spec h hs
  have hper : Function.IsPeriodicPt (nextDrawer B) (cycleLength B s) s := h3
  have hle := Function.IsPeriodicPt.minimalPeriod_le h1 hper
  have hpos := Function.IsPeriodicPt.minimalPeriod_pos h1 hper
  by_contra hne
  exact h4 _ hpos (by omega) (Function.iterate_minimalPeriod)

/-- The search of prisoner `id` on a drawer array is the cycle-following search,
whatever the random engine returns. -/
theorem attempt_state_eq {B : List Nat} (h : IsDrawerArray B) {id : Nat} (h1 : 1 ≤ id)
    (h2 : id ≤ 100) (random : Nat → Nat) {fuel : Nat} (hf : 52 ≤ fuel) :
    prisonner_attempt_state fuel B random {} id = .ok (cycleSearch B id) := by
  obtain ⟨s, rfl⟩ : ∃ s, id = s + 1 := ⟨id - 1, by omega⟩
  have hs : s < 100 := by omega
  obtain ⟨c1, c2, c3, c4⟩ := cycleLength_spec h hs
  unfold cycleSearch
  simp only [Nat.add_sub_cancel]
  by_cases hL : cycleLength B s ≤ 50
  · rw [if_pos hL]
    exact attempt_state_found h hs c1 hL c3 c4 random hf
  · rw [if_neg hL]
    exact attempt_state_exhaust h hs (fun j j1 j2 => c4 j j1 (by omega)) random hf

theorem attempt_eq {B : List Nat} (h : IsDrawerArray B) {id : Nat} (h1 : 1 ≤ id)
    (h2 : id ≤ 100) (random : Nat → Nat) {fuel : Nat} (hf : 52 ≤ fuel) :
    prisonner_attempt fuel B random {} id = .ok (cycleSearch B id).prisonner := by
  unfold prisonner_attempt
  rw [attempt_state_eq h h1 h2 random hf]

theorem cycleSearch_success (B : List Nat) (id : Nat) :
    (cycleSearch B id).prisonner.success = true ↔ cycleLength B (id - 1) ≤ 50 := by
  unfold cycleSearch
  by_cases hL : cycleLength B (id - 1) ≤ 50
  · simp [hL, foundState]
  · simp [hL, walkState]

theorem searchSucceeds_iff {B : List Nat} (h : IsDrawerArray B) {id : Nat} (h1 : 1 ≤ id)
    (h2 : id ≤ 100) (random : Nat → Nat) {fuel : Nat} (hf : 52 ≤ fuel) :
    SearchSucceeds fuel B random id ↔ cycleLength B (id - 1) ≤ 50 := by
  unfold SearchSucceeds
  have := attempt_eq h h1 h2 random hf
  simp only [this, Except.ok.injEq, exists_eq_left', cycleSearch_success]

theorem searchFails_iff {B : List Nat} (h : IsDrawerArray B) {id : Nat} (h1 : 1 ≤ id)
    (h2 : id ≤ 100) (random : Nat → Nat) {fuel : Nat} (hf : 52 ≤ fuel) :
    SearchFails fuel B random id ↔ 50 < cycleLength B (id - 1) := by
  unfold SearchFails
  have := attempt_eq h h1 h2 random hf
  simp only [this, Except.ok.injEq, exists_eq_left', ← Bool.not_eq_true, cycleSearch_success]
  omega

/-- C1: on a drawer array (a permutation of the labels 1..100), for every
identity `id` in 1..100, every random engine and enough fuel, `prisonner_attempt`
started on a fresh record returns, and it ends with `success = true` if and
only if the cycle through drawer `id - 1` has length at most 50; that length is
the minimal period of the drawer under `i ↦ Boxes[i] - 1`. -/
theorem prisonner_attempt_success_iff (Boxes : List Nat) (hperm : IsDrawerArray Boxes)
    (id : Nat) (h1 : 1 ≤ id) (h2 : id ≤ 100) (random : Nat → Nat) (fuel : Nat)
    (hfuel : 52 ≤ fuel) :
    ∃ p, prisonner_attempt fuel Boxes random
        { success := false, remainingAttempts := 50, visited := [] } id = .ok p ∧
      (p.success = true ↔ cycleLength Boxes (id - 1) ≤ 50) ∧
      cycleLength Boxes (id - 1) = Function.minimalPeriod (nextDrawer Boxes) (id - 1) :=
  ⟨_, attempt_eq hperm h1 h2 random hfuel, cycleSearch_success Boxes id,
    cycleLength_eq_minimalPeriod hperm (by omega)⟩

set_option maxRecDepth 100000 in
theorem prisonner_attempt_success_iff_witness :
    IsDrawerArray exampleBoxes ∧ 1 ≤ 2 ∧ 2 ≤ 100 ∧ 52 ≤ 52 ∧
    ∃ p, prisonner_attempt 52 exampleBoxes (fun _ => 7)
        { success := false, remainingAttempts := 50, visited := [] } 2 = .ok p ∧
      (p.success = true ↔ cycleLength exampleBoxes (2 - 1) ≤ 50) ∧
      cycleLength exampleBoxes (2 - 1) = Function.minimalPeriod (nextDrawer exampleBoxes) (2 - 1) :=
  ⟨by decide, by decide, by decide, by decide,
    prisonner_attempt_success_iff exampleBoxes (by decide) 2 (by decide) (by decide)
      (fun _ => 7) 52 (by decide)⟩


/-! ## The trial loop -/

theorem is_run_failed_iff (l : List Prisonner) :
    is_run_failed l = true ↔ ∃ p ∈ l, p.success = false := by
  induction l with
  | nil => simp [is_run_failed]
  | cons p l ih =>
    rw [is_run_failed]
    by_cases hp : p.success = false
    · simp [hp]
    · simp [hp, ih]

/-- All remaining prisoners have short cycles: the loop runs to the end of the list. -/
theorem trialLoop_pass {B : List Nat} (h : IsDrawerArray B) (rng : Nat → Nat → Nat)
    {fuel : Nat} (hf : 52 ≤ fuel) :
    ∀ (n : Nat) (seen : List Prisonner) (id : Nat), 1 ≤ id → id + n ≤ 101 →
      (∀ j, id ≤ j → j < id + n → cycleLength B (j - 1) ≤ 50) →
      trialLoop fuel B rng seen (List.replicate n {}) id =
        .ok (seen ++ (List.range' id n).map (fun j => (cycleSearch B j).prisonner), id + n) := by
  intro n
  induction n with
  | zero => intro seen id _ _ _; simp [trialLoop]
  | succ n ih =>
    intro seen id h1 h2 hall
    rw [List.replicate_succ, trialLoop, attempt_eq h h1 (by omega) _ hf]
    have hs : (cycleSearch B id).prisonner.success = true :=
      (cycleSearch_success B id).mpr (hall id le_rfl (by omega))
    simp only [hs, Bool.true_eq_false, if_false]
    rw [u8_of_lt (by omega), ih _ (id + 1) (by omega) (by omega)
      (fun j j1 j2 => hall j (by omega) (by omega))]
    simp [List.range'_succ, Nat.add_assoc, Nat.add_comm 1 n]

/-- Prisoner `k` is the first with a long cycle: the loop stops at `k`. -/
theorem trialLoop_stop {B : List Nat} (h : IsDrawerArray B) (rng : Nat → Nat → Nat)
    {fuel : Nat} (hf : 52 ≤ fuel) {k : Nat} (hk : 50 < cycleLength B (k - 1)) :
    ∀ (n : Nat) (seen : List Prisonner) (id : Nat), 1 ≤ id → id ≤ k → k < id + n →
      id + n ≤ 101 → (∀ j, id ≤ j → j < k → cycleLength B (j - 1) ≤ 50) →
      trialLoop fuel B rng seen (List.replicate n {}) id =
        .ok (seen ++ (List.range' id (k + 1 - id)).map (fun j => (cycleSearch B j).prisonner)
              ++ List.replicate (id + n - (k + 1)) ({} : Prisonner), k) := by
  intro n
  induction n with
  | zero => intro seen id _ _ _ _ _; omega
  | succ n ih =>
    intro seen id h1 h2 h3 h4 hall
    rw [List.replicate_succ, trialLoop, attempt_eq h h1 (by omega) _ hf]
    rcases Nat.eq_or_lt_of_le h2 with e | hlt
    · subst e
      have hs : (cycleSearch B id).prisonner.success = false := by
        rw [← Bool.not_eq_true, cycleSearch_success]; omega
      simp only [hs, if_true]
      have e1 : id + 1 - id = 1 := by omega
      have e2 : id + (n + 1) - (id + 1) = n := by omega
      simp [e1, e2]
    · have hs : (cycleSearch B id).prisonner.success = true :=
        (cycleSearch_success B id).mpr (hall id le_rfl hlt)
      simp only [hs, Bool.true_eq_false, if_false]
      rw [u8_of_lt (by omega), ih _ (id + 1) (by omega) (by omega) (by omega) (by omega)
        (fun j j1 j2 => hall j (by omega) j2)]
      have e1 : k + 1 - id = (k + 1 - (id + 1)) + 1 := by omega
      have e2 : id + 1 + n - (k + 1) = id + (n + 1) - (k + 1) := by omega
      rw [e1, e2, List.range'_succ]
      simp

theorem trial_pass {B : List Nat} (h : IsDrawerArray B) (rng : Nat → Nat → Nat)
    {fuel : Nat} (hf : 52 ≤ fuel)
    (hall : ∀ j, 1 ≤ j → j ≤ 100 → cycleLength B (j - 1) ≤ 50) :
    trial fuel B rng =
      .ok ((List.range' 1 100).map (fun j => (cycleSearch B j).prisonner), 101) := by
  unfold trial
  rw [trialLoop_pass h rng hf 100 [] 1 le_rfl (by omega) (fun j j1 j2 => hall j j1 (by omega))]
  simp

theorem trial_stop {B : List Nat} (h : IsDrawerArray B) (rng : Nat → Nat → Nat)
    {fuel : Nat} (hf : 52 ≤ fuel) {k : Nat} (k1 : 1 ≤ k) (k2 : k ≤ 100)
    (hk : 50 < cycleLength B (k - 1))
    (hall : ∀ j, 1 ≤ j → j < k → cycleLength B (j - 1) ≤ 50) :
    trial fuel B rng =
      .ok ((List.range' 1 k).map (fun j => (cycleSearch B j).prisonner)
            ++ List.replicate (100 - k) ({} : Prisonner), k) := by
  unfold trial
  rw [trialLoop_stop h rng hf hk 100 [] 1 le_rfl k1 (by omega) (by omega) hall]
  have e1 : k + 1 - 1 = k := by omega
  have e2 : 1 + 100 - (k + 1) = 100 - k := by omega
  simp [e1, e2]

/-- Among the prisoners `1..100` either all have cycles of length at most 50 or
there is a first one whose cycle is longer. -/
theorem first_long_cycle (B : List Nat) :
    (∀ j, 1 ≤ j → j ≤ 100 → cycleLength B (j - 1) ≤ 50) ∨
    ∃ k, 1 ≤ k ∧ k ≤ 100 ∧ 50 < cycleLength B (k - 1) ∧
      ∀ j, 1 ≤ j → j < k → cycleLength B (j - 1) ≤ 50 := by
  by_cases hall : ∀ j, 1 ≤ j → j ≤ 100 → cycleLength B (j - 1) ≤ 50
  · exact Or.inl hall
  · right
    have hex : ∃ k, 1 ≤ k ∧ k ≤ 100 ∧ 50 < cycleLength B (k - 1) := by
      by_contra hne
      apply hall
      intro j j1 j2
      by_contra hj
      exact hne ⟨j, j1, j2, by omega⟩
    classical
    refine ⟨Nat.find hex, (Nat.find_spec hex).1, (Nat.find_spec hex).2.1,
      (Nat.find_spec hex).2.2, fun j j1 j2 => ?_⟩
    by_contra hj
    exact Nat.find_min hex j2 ⟨j1, by have := (Nat.find_spec hex).2.1; omega, by omega⟩

theorem is_run_failed_pass (B : List Nat)
    (hall : ∀ j, 1 ≤ j → j ≤ 100 → cycleLength B (j - 1) ≤ 50) :
    is_run_failed ((List.range' 1 100).map (fun j => (cycleSearch B j).prisonner)) = false := by
  rw [← Bool.not_eq_true, is_run_failed_iff]
  rintro ⟨p, hp, hs⟩
  obtain ⟨j, hj, rfl⟩ := List.mem_map.mp hp
  rw [List.mem_range'_1] at hj
  rw [← Bool.not_eq_true, cycleSearch_success] at hs
  exact hs (hall j hj.1 (by omega))

theorem is_run_failed_stop (B : List Nat) {k : Nat} (k1 : 1 ≤ k)
    (hk : 50 < cycleLength B (k - 1)) (rest : List Prisonner) :
    is_run_failed ((List.range' 1 k).map (fun j => (cycleSearch B j).prisonner) ++ rest)
      = true := by
  rw [is_run_failed_iff]
  refine ⟨(cycleSearch B k).prisonner, ?_, ?_⟩
  · apply List.mem_append_left
    exact List.mem_map.mpr ⟨k, by rw [List.mem_range'_1]; omega, rfl⟩
  · rw [← Bool.not_eq_true, cycleSearch_success]; omega

theorem trialBody_pass {w : Sim} (h : IsDrawerArray w.Boxes) (rng : Nat → Nat → Nat)
    (run : Nat) {fuel : Nat} (hf : 52 ≤ fuel)
    (hall : ∀ j, 1 ≤ j → j ≤ 100 → cycleLength w.Boxes (j - 1) ≤ 50) :
    trialBody fuel rng run w =
      .ok { w with
            counters := { w.counters with success_runs := w.counters.success_runs + 1 }
            out := w.out ++ [Line.success run] } := by
  unfold trialBody
  rw [trial_pass h rng hf hall]
  simp only [is_run_failed_pass w.Boxes hall, Bool.false_eq_true, if_false]

theorem trialBody_stop {w : Sim} (h : IsDrawerArray w.Boxes) (rng : Nat → Nat → Nat)
    (run : Nat) {fuel : Nat} (hf : 52 ≤ fuel) {k : Nat} (k1 : 1 ≤ k) (k2 : k ≤ 100)
    (hk : 50 < cycleLength w.Boxes (k - 1))
    (hall : ∀ j, 1 ≤ j → j < k → cycleLength w.Boxes (j - 1) ≤ 50) :
    trialBody fuel rng run w =
      .ok { w with
            counters := { w.counters with
              failed_runs := w.counters.failed_runs + 1
              tries := w.counters.tries + k }
            out := w.out ++ [Line.failed run k] } := by
  unfold trialBody
  rw [trial_stop h rng hf k1 k2 hk hall]
  simp only [is_run_failed_stop w.Boxes k1 hk, if_true]

/-- C3: on a drawer array, lines 134-159 of one run return, and they increment
`success_runs` if and only if the searches of all prisoners 1..100 succeed; if
they do, only the success is recorded; otherwise the run is recorded as failed
with an ordinal `k` such that the search of prisoner `k` fails and the searches
of all prisoners `1..k-1` succeed. -/
theorem trialBody_records (w : Sim) (hperm : IsDrawerArray w.Boxes) (rng : Nat → Nat → Nat)
    (run : Nat) (fuel : Nat) (hfuel : 52 ≤ fuel) :
    ∃ w', trialBody fuel rng run w = .ok w' ∧
      (w'.counters.success_runs = w.counters.success_runs + 1 ↔
        ∀ id, 1 ≤ id → id ≤ 100 → SearchSucceeds fuel w.Boxes (rng (id - 1)) id) ∧
      ((∀ id, 1 ≤ id → id ≤ 100 → SearchSucceeds fuel w.Boxes (rng (id - 1)) id) →
        w'.counters = { w.counters with success_runs := w.counters.success_runs + 1 } ∧
        w'.out = w.out ++ [Line.success run]) ∧
      (¬ (∀ id, 1 ≤ id → id ≤ 100 → SearchSucceeds fuel w.Boxes (rng (id - 1)) id) →
        ∃ k, 1 ≤ k ∧ k ≤ 100 ∧ SearchFails fuel w.Boxes (rng (k - 1)) k ∧
          (∀ j, 1 ≤ j → j < k → SearchSucceeds fuel w.Boxes (rng (j - 1)) j) ∧
          w'.counters = { w.counters with
              failed_runs := w.counters.failed_runs + 1
              tries := w.counters.tries + k } ∧
          w'.out = w.out ++ [Line.failed run k]) := by
  have hiff : (∀ id, 1 ≤ id → id ≤ 100 → SearchSucceeds fuel w.Boxes (rng (id - 1)) id) ↔
      ∀ j, 1 ≤ j → j ≤ 100 → cycleLength w.Boxes (j - 1) ≤ 50 :=
    forall_congr' fun id => forall_congr' fun h1 => forall_congr' fun h2 =>
      searchSucceeds_iff hperm h1 h2 _ hfuel
  rcases first_long_cycle w.Boxes with hall | ⟨k, k1, k2, hk, hbefore⟩
  · refine ⟨_, trialBody_pass hperm rng run hfuel hall, ?_, ?_, ?_⟩
    · simp only [true_iff]; exact hiff.mpr hall
    · intro _; exact ⟨rfl, rfl⟩
    · intro hn; exact absurd (hiff.mpr hall) hn
  · have hnot : ¬ ∀ id, 1 ≤ id → id ≤ 100 → SearchSucceeds fuel w.Boxes (rng (id - 1)) id := by
      rw [hiff]; intro hall
      have := hall k k1 k2
      omega
    refine ⟨_, trialBody_stop hperm rng run hfuel k1 k2 hk hbefore, ?_, ?_, ?_⟩
    · simp only [hnot, iff_false]; simp
    · intro hy; exact absurd hy hnot
    · intro _
      refine ⟨k, k1, k2, (searchFails_iff hperm k1 k2 _ hfuel).mpr hk, ?_, rfl, rfl⟩
      intro j j1 j2
      exact (searchSucceeds_iff hperm j1 (by omega) _ hfuel).mpr (hbefore j j1 j2)

/-- C6: on a drawer array, the trial run with any two families of random
engines returns the same list of prisoner records (hence the same success
flags) and the same final `prisonnerID`, and records the same outcome. -/
theorem trial_deterministic (w : Sim) (hperm : IsDrawerArray w.Boxes)
    (rng1 rng2 : Nat → Nat → Nat) (run : Nat) (fuel : Nat) (hfuel : 52 ≤ fuel) :
    ∃ prisonners prisonnerID w',
      trial fuel w.Boxes rng1 = .ok (prisonners, prisonnerID) ∧
      trial fuel w.Boxes rng2 = .ok (prisonners, prisonnerID) ∧
      trialBody fuel rng1 run w = .ok w' ∧
      trialBody fuel rng2 run w = .ok w' := by
  rcases first_long_cycle w.Boxes with hall | ⟨k, k1, k2, hk, hbefore⟩
  · exact ⟨_, _, _, trial_pass hperm rng1 hfuel hall, trial_pass hperm rng2 hfuel hall,
      trialBody_pass hperm rng1 run hfuel hall, trialBody_pass hperm rng2 run hfuel hall⟩
  · exact ⟨_, _, _, trial_stop hperm rng1 hfuel k1 k2 hk hbefore,
      trial_stop hperm rng2 hfuel k1 k2 hk hbefore,
      trialBody_stop hperm rng1 run hfuel k1 k2 hk hbefore,
      trialBody_stop hperm rng2 run hfuel k1 k2 hk hbefore⟩

/-- The drawers on the cycle through `s`, as a finite set. -/
theorem orbit_card {B : List Nat} (h : IsDrawerArray B) {s : Nat} (hs : s < 100) :
    ((Finset.range (cycleLength B s)).image fun j => (nextDrawer B)^[j] s).card
      = cycleLength B s := by
  obtain ⟨_, _, _, c4⟩ := cycleLength_spec h hs
  rw [Finset.card_image_of_injOn, Finset.card_range]
  intro a ha b hb e
  simp only [Finset.coe_range, Set.mem_Iio] at ha hb
  by_contra hne
  rcases Nat.lt_or_gt_of_ne hne with hlt | hlt
  · exact h.iterate_ne hs (fun j j1 j2 => c4 j j1 (by omega)) hlt e
  · exact h.iterate_ne hs (fun j j1 j2 => c4 j j1 (by omega)) hlt e.symm

/-- Two cycles of length above 50 in a drawer array are the same cycle. -/
theorem long_cycles_meet {B : List Nat} (h : IsDrawerArray B) {s t : Nat} (hs : s < 100)
    (ht : t < 100) (hLs : 50 < cycleLength B s) (hLt : 50 < cycleLength B t) :
    OnCycle B s t := by
  set Os := (Finset.range (cycleLength B s)).image fun j => (nextDrawer B)^[j] s with hOs
  set Ot := (Finset.range (cycleLength B t)).image fun j => (nextDrawer B)^[j] t with hOt
  have hsub : Os ∪ Ot ⊆ Finset.range 100 := by
    intro x hx
    rw [Finset.mem_union] at hx
    rcases hx with hx | hx
    · obtain ⟨j, _, rfl⟩ := Finset.mem_image.mp hx
      exact Finset.mem_range.mpr (h.iterate_lt hs j)
    · obtain ⟨j, _, rfl⟩ := Finset.mem_image.mp hx
      exact Finset.mem_range.mpr (h.iterate_lt ht j)
  have hmeet : ¬ Disjoint Os Ot := by
    intro hd
    have hc := Finset.card_le_card hsub
    rw [Finset.card_union_of_disjoint hd, orbit_card h hs, orbit_card h ht,
      Finset.card_range] at hc
    omega
  rw [Finset.not_disjoint_iff] at hmeet
  obtain ⟨x, hxs, hxt⟩ := hmeet
  obtain ⟨a, _, ha⟩ := Finset.mem_image.mp hxs
  obtain ⟨b, hb, hbx⟩ := Finset.mem_image.mp hxt
  have hb' : b < cycleLength B t := Finset.mem_range.mp hb
  obtain ⟨_, _, c3, _⟩ := cycleLength_spec h ht
  refine ⟨(cycleLength B t - b) + a, ?_⟩
  rw [Function.iterate_add_apply]
  rw [ha, ← hbx, ← Function.iterate_add_apply]
  have : cycleLength B t - b + b = cycleLength B t := by omega
  rw [this, c3]

/-- All drawers on one cycle have the same cycle length. -/
theorem cycleLength_onCycle {B : List Nat} (h : IsDrawerArray B) {s t : Nat} (hs : s < 100)
    (hst : OnCycle B s t) : cycleLength B t = cycleLength B s := by
  obtain ⟨j, rfl⟩ := hst
  obtain ⟨c1, _, c3, _⟩ := cycleLength_spec h hs
  rw [cycleLength_eq_minimalPeriod h (h.iterate_lt hs j), cycleLength_eq_minimalPeriod h hs]
  exact Function.minimalPeriod_apply_iterate (Function.mk_mem_periodicPts c1 c3) j

/-- Every prisoner on a cycle of length 51 fails, and the trial stops at the
smallest identity on that cycle. -/
theorem long_cycle_first {B : List Nat} (h : IsDrawerArray B) {s : Nat} (hs : s < 100)
    (hlen : 50 < cycleLength B s) :
    ∃ k, 1 ≤ k ∧ k ≤ 100 ∧ OnCycle B s (k - 1) ∧
      (∀ id, 1 ≤ id → id ≤ 100 → OnCycle B s (id - 1) → k ≤ id) ∧
      50 < cycleLength B (k - 1) ∧
      ∀ j, 1 ≤ j → j < k → cycleLength B (j - 1) ≤ 50 := by
  rcases first_long_cycle B with hall | ⟨k, k1, k2, hk, hbefore⟩
  · have := hall (s + 1) (by omega) (by omega)
    simp only [Nat.add_sub_cancel] at this
    omega
  · refine ⟨k, k1, k2, long_cycles_meet h hs (by omega) hlen hk, ?_, hk, hbefore⟩
    intro id i1 i2 hon
    by_contra hlt
    have := hbefore id i1 (by omega)
    rw [cycleLength_onCycle h hs hon] at this
    omega

theorem is_run_failed_of_all_success (l : List Prisonner) (h : ∀ p ∈ l, p.success = true) :
    is_run_failed l = false := by
  rw [← Bool.not_eq_true, is_run_failed_iff]
  rintro ⟨p, hp, hs⟩
  rw [h p hp] at hs
  exact absurd hs (by simp)

/-- The trial loop, whatever the array holds: when it ends in a failed trial, the
records up to the break are the results of the searches and the records after
it are untouched. -/
theorem trialLoop_frame (fuel : Nat) (B : List Nat) (rng : Nat → Nat → Nat) :
    ∀ (rest seen : List Prisonner) (id : Nat) (r : List Prisonner) (k : Nat),
      (∀ p ∈ seen, p.success = true) → id + rest.length ≤ 255 →
      trialLoop fuel B rng seen rest id = .ok (r, k) → is_run_failed r = true →
      ∃ tail m, r = seen ++ tail ∧ m < rest.length ∧ k = id + m ∧
        (∀ i, m < i → tail[i]? = rest[i]?) ∧
        (∀ i, i ≤ m → ∃ p q, rest[i]? = some p ∧ tail[i]? = some q ∧
          prisonner_attempt fuel B (rng (seen.length + i)) p (id + i) = .ok q) := by
  intro rest
  induction rest with
  | nil =>
    intro seen id r k hseen _ hrun hfail
    simp only [trialLoop, Except.ok.injEq, Prod.mk.injEq] at hrun
    rw [← hrun.1, is_run_failed_of_all_success seen hseen] at hfail
    exact absurd hfail (by simp)
  | cons p rest ih =>
    intro seen id r k hseen hlen hrun hfail
    rw [trialLoop] at hrun
    cases hatt : prisonner_attempt fuel B (rng seen.length) p id with
    | error e => rw [hatt] at hrun; exact absurd hrun (by simp)
    | ok p1 =>
      rw [hatt] at hrun
      simp only at hrun
      by_cases hs : p1.success = false
      · rw [if_pos hs] at hrun
        simp only [Except.ok.injEq, Prod.mk.injEq] at hrun
        obtain ⟨rfl, rfl⟩ := hrun
        refine ⟨p1 :: rest, 0, rfl, by simp, rfl, ?_, ?_⟩
        · intro i hi
          obtain ⟨i, rfl⟩ : ∃ j, i = j + 1 := ⟨i - 1, by omega⟩
          simp
        · intro i hi
          obtain rfl : i = 0 := by omega
          exact ⟨p, p1, by simp, by simp, by simpa using hatt⟩
      · rw [if_neg hs] at hrun
        simp only [List.length_cons] at hlen
        rw [u8_of_lt (by omega)] at hrun
        have hseen' : ∀ q ∈ seen ++ [p1], q.success = true := by
          intro q hq
          rcases List.mem_append.mp hq with hq | hq
          · exact hseen q hq
          · rw [List.mem_singleton] at hq; subst hq; simpa using hs
        obtain ⟨tail, m, hr, hm, hk, hafter, hupto⟩ :=
          ih (seen ++ [p1]) (id + 1) r k hseen' (by omega) hrun hfail
        refine ⟨p1 :: tail, m + 1, by simp [hr], by simp; omega, by omega, ?_, ?_⟩
        · intro i hi
          obtain ⟨i, rfl⟩ : ∃ j, i = j + 1 := ⟨i - 1, by omega⟩
          simpa using hafter i (by omega)
        · intro i hi
          rcases Nat.eq_zero_or_pos i with rfl | hpos
          · exact ⟨p, p1, by simp, by simp, by simpa using hatt⟩
          · obtain ⟨i, rfl⟩ : ∃ j, i = j + 1 := ⟨i - 1, by omega⟩
            obtain ⟨a, b, ha, hb, hab⟩ := hupto i (by omega)
            refine ⟨a, b, by simpa using ha, by simpa using hb, ?_⟩
            have e1 : (seen ++ [p1]).length + i = seen.length + (i + 1) := by
              simp; omega
            have e2 : id + 1 + i = id + (i + 1) := by omega
            rw [e1, e2] at hab
            exact hab

/-- C10: in a trial that ends failed with final `prisonnerID = k`, the records
of the prisoners `1..k` are the results of their calls of `prisonner_attempt`,
and the record of every prisoner with identity above `k` is still in its
initial state (`success = false`, `remainingAttempts = 50`, `visited` empty). -/
theorem early_stop_frame (fuel : Nat) (Boxes : List Nat) (rng : Nat → Nat → Nat)
    (prisonners : List Prisonner) (k : Nat)
    (hrun : trial fuel Boxes rng = .ok (prisonners, k))
    (hfail : is_run_failed prisonners = true) :
    1 ≤ k ∧ k ≤ 100 ∧
      (∀ id, 1 ≤ id → id ≤ k → ∃ p,
        prisonner_attempt fuel Boxes (rng (id - 1)) freshPrisonner id = .ok p ∧
        prisonners[id - 1]? = some p) ∧
      (∀ id, k < id → id ≤ 100 → prisonners[id - 1]? = some freshPrisonner) := by
  unfold trial at hrun
  obtain ⟨tail, m, hr, hm, hk, hafter, hupto⟩ :=
    trialLoop_frame fuel Boxes rng _ [] 1 prisonners k (by simp) (by simp) hrun hfail
  simp only [List.length_replicate] at hm
  simp only [List.nil_append] at hr
  subst hr
  refine ⟨by omega, by omega, ?_, ?_⟩
  · intro id i1 i2
    obtain ⟨a, b, ha, hb, hab⟩ := hupto (id - 1) (by omega)
    have hlt : id - 1 < 100 := by omega
    rw [List.getElem?_replicate, if_pos hlt] at ha
    obtain rfl := Option.some.inj ha
    refine ⟨b, ?_, hb⟩
    have e : 1 + (id - 1) = id := by omega
    simpa [e] using hab
  · intro id i1 i2
    rw [hafter (id - 1) (by omega), List.getElem?_replicate, if_pos (by omega)]
    rfl

theorem early_stop_frame_witness :
    trial 52 longCycleBoxes (fun _ _ => 0) =
        .ok ((walkState longCycleBoxes 0 50).prisonner :: List.replicate 99 freshPrisonner, 1) ∧
      is_run_failed ((walkState longCycleBoxes 0 50).prisonner :: List.replicate 99 freshPrisonner)
        = true ∧
      (1 ≤ 1 ∧ 1 ≤ 100 ∧
        (∀ id, 1 ≤ id → id ≤ 1 → ∃ p,
          prisonner_attempt 52 longCycleBoxes ((fun _ _ => 0) (id - 1)) freshPrisonner id = .ok p ∧
          ((walkState longCycleBoxes 0 50).prisonner :: List.replicate 99 freshPrisonner)[id - 1]?
            = some p) ∧
        (∀ id, 1 < id → id ≤ 100 →
          ((walkState longCycleBoxes 0 50).prisonner :: List.replicate 99 freshPrisonner)[id - 1]?
            = some freshPrisonner)) :=
  ⟨by rfl, by rfl, early_stop_frame 52 longCycleBoxes (fun _ _ => 0) _ 1 (by rfl) (by rfl)⟩

/-- C4: on a drawer array with a cycle of length 51 through drawer `s`, the
search of every prisoner whose drawer lies on that cycle fails, and the trial is
recorded as failed with the smallest identity on that cycle as its ordinal. -/
theorem cycle_of_51_fails (w : Sim) (hperm : IsDrawerArray w.Boxes) (s : Nat) (hs : s < 100)
    (hlen : cycleLength w.Boxes s = 51) (rng : Nat → Nat → Nat) (run : Nat) (fuel : Nat)
    (hfuel : 52 ≤ fuel) :
    (∀ id, 1 ≤ id → id ≤ 100 → OnCycle w.Boxes s (id - 1) →
      ∀ random, SearchFails fuel w.Boxes random id) ∧
    ∃ k, 1 ≤ k ∧ k ≤ 100 ∧ OnCycle w.Boxes s (k - 1) ∧
      (∀ id, 1 ≤ id → id ≤ 100 → OnCycle w.Boxes s (id - 1) → k ≤ id) ∧
      trialBody fuel rng run w =
        .ok { w with
              counters := { w.counters with
                failed_runs := w.counters.failed_runs + 1
                tries := w.counters.tries + k }
              out := w.out ++ [Line.failed run k] } := by
  constructor
  · intro id i1 i2 hon random
    rw [searchFails_iff hperm i1 i2 random hfuel, cycleLength_onCycle hperm hs hon, hlen]
    omega
  · obtain ⟨k, k1, k2, hon, hmin, hk, hbefore⟩ := long_cycle_first hperm hs (by omega)
    exact ⟨k, k1, k2, hon, hmin, trialBody_stop hperm rng run hfuel k1 k2 hk hbefore⟩

set_option maxRecDepth 100000 in
theorem cycle_of_51_fails_witness :
    IsDrawerArray longCycleBoxes ∧ cycleLength longCycleBoxes 0 = 51 ∧
    ((∀ id, 1 ≤ id → id ≤ 100 → OnCycle longCycleBoxes 0 (id - 1) →
      ∀ random, SearchFails 52 longCycleBoxes random id) ∧
    ∃ k, 1 ≤ k ∧ k ≤ 100 ∧ OnCycle longCycleBoxes 0 (k - 1) ∧
      (∀ id, 1 ≤ id → id ≤ 100 → OnCycle longCycleBoxes 0 (id - 1) → k ≤ id) ∧
      trialBody 52 (fun _ _ => 0) 1 { Boxes := longCycleBoxes } =
        .ok { Boxes := longCycleBoxes
              counters := { success_runs := 0, failed_runs := 0 + 1, tries := 0 + k }
              out := [] ++ [Line.failed 1 k] }) :=
  ⟨by decide, by decide,
    cycle_of_51_fails { Boxes := longCycleBoxes } (by decide) 0 (by decide) (by decide)
      (fun _ _ => 0) 1 52 (by decide)⟩

/-- The example with the 51-cycle through drawers 0..50: the trial is recorded
as failed at prisoner 1, whatever the random engines return. -/
theorem longCycleBoxes_trial (rng : Nat → Nat → Nat) (run : Nat) (fuel : Nat)
    (hfuel : 52 ≤ fuel) (w : Sim) (hw : w.Boxes = longCycleBoxes) :
    trialBody fuel rng run w =
      .ok { w with
            counters := { w.counters with
              failed_runs := w.counters.failed_runs + 1
              tries := w.counters.tries + 1 }
            out := w.out ++ [Line.failed run 1] } := by
  have hperm : IsDrawerArray w.Boxes := by rw [hw]; decide
  exact trialBody_stop hperm rng run hfuel le_rfl (by omega) (by rw [hw]; decide)
    (fun j j1 j2 => by omega)

set_option maxRecDepth 100000 in
theorem exampleBoxes_cycles :
    ∀ j ∈ List.range' 1 100, cycleLength exampleBoxes (j - 1) ≤ 50 ∧
      (j ≤ 2 → cycleLength exampleBoxes (j - 1) = 2) := by
  decide

/-- C5: on a drawer array a prisoner whose cycle has length `L ≤ 50` succeeds
with at most `L` drawers in `visited`; on `[2,1,4,3,5,...,100]` prisoners 1 and 2
succeed with at most 2 drawers opened, every other prisoner succeeds, and the
trial is recorded as a success. -/
theorem short_cycle_succeeds :
    (∀ Boxes, IsDrawerArray Boxes → ∀ id, 1 ≤ id → id ≤ 100 →
      cycleLength Boxes (id - 1) ≤ 50 → ∀ (random : Nat → Nat) (fuel : Nat), 52 ≤ fuel →
      ∃ p, prisonner_attempt fuel Boxes random freshPrisonner id = .ok p ∧
        p.success = true ∧ p.visited.length ≤ cycleLength Boxes (id - 1)) ∧
    (∀ (rng : Nat → Nat → Nat) (run fuel : Nat) (w : Sim), 52 ≤ fuel →
      w.Boxes = exampleBoxes →
      (∀ id, id = 1 ∨ id = 2 →
        ∃ p, prisonner_attempt fuel exampleBoxes (rng (id - 1)) freshPrisonner id = .ok p ∧
          p.success = true ∧ p.visited.length ≤ 2) ∧
      (∀ id, 3 ≤ id → id ≤ 100 → SearchSucceeds fuel exampleBoxes (rng (id - 1)) id) ∧
      trialBody fuel rng run w =
        .ok { w with
              counters := { w.counters with success_runs := w.counters.success_runs + 1 }
              out := w.out ++ [Line.success run] }) := by
  have gen : ∀ Boxes, IsDrawerArray Boxes → ∀ id, 1 ≤ id → id ≤ 100 →
      cycleLength Boxes (id - 1) ≤ 50 → ∀ (random : Nat → Nat) (fuel : Nat), 52 ≤ fuel →
      ∃ p, prisonner_attempt fuel Boxes random freshPrisonner id = .ok p ∧
        p.success = true ∧ p.visited.length ≤ cycleLength Boxes (id - 1) := by
    intro Boxes hperm id h1 h2 hL random fuel hfuel
    refine ⟨_, attempt_eq hperm h1 h2 random hfuel, (cycleSearch_success Boxes id).mpr hL, ?_⟩
    unfold cycleSearch
    rw [if_pos hL]
    simp [foundState]
  have hperm : IsDrawerArray exampleBoxes := by decide
  have hcyc : ∀ j, 1 ≤ j → j ≤ 100 → cycleLength exampleBoxes (j - 1) ≤ 50 ∧
      (j ≤ 2 → cycleLength exampleBoxes (j - 1) = 2) := fun j j1 j2 =>
    exampleBoxes_cycles j (by rw [List.mem_range'_1]; omega)
  refine ⟨gen, ?_⟩
  intro rng run fuel w hfuel hw
  refine ⟨?_, ?_, ?_⟩
  · intro id hid
    have h1 : 1 ≤ id := by omega
    have h2 : id ≤ 100 := by omega
    obtain ⟨p, hp, hs, hv⟩ := gen exampleBoxes hperm id h1 h2 (hcyc id h1 h2).1 (rng (id - 1))
      fuel hfuel
    exact ⟨p, hp, hs, by rw [(hcyc id h1 h2).2 (by omega)] at hv; exact hv⟩
  · intro id h3 h100
    exact (searchSucceeds_iff hperm (by omega) h100 _ hfuel).mpr (hcyc id (by omega) h100).1
  · have hperm' : IsDrawerArray w.Boxes := by rw [hw]; exact hperm
    exact trialBody_pass hperm' rng run hfuel (fun j j1 j2 => by rw [hw]; exact (hcyc j j1 j2).1)

set_option maxRecDepth 100000 in
theorem short_cycle_succeeds_witness :
    IsDrawerArray exampleBoxes ∧ cycleLength exampleBoxes (1 - 1) ≤ 50 ∧
      ∃ p, prisonner_attempt 52 exampleBoxes (fun _ => 0) freshPrisonner 1 = .ok p ∧
        p.success = true ∧ p.visited.length ≤ cycleLength exampleBoxes (1 - 1) :=
  ⟨by decide, by decide,
    short_cycle_succeeds.1 exampleBoxes (by decide) 1 (by decide) (by decide) (by decide)
      (fun _ => 0) 52 (by decide)⟩

theorem trialBody_records_witness :
    IsDrawerArray longCycleBoxes ∧ 52 ≤ 52 ∧
    ∃ w', trialBody 52 (fun _ _ => 0) 1 { Boxes := longCycleBoxes } = .ok w' ∧
      (w'.counters.success_runs = 0 + 1 ↔
        ∀ id, 1 ≤ id → id ≤ 100 → SearchSucceeds 52 longCycleBoxes ((fun _ _ => 0) (id - 1)) id) ∧
      ((∀ id, 1 ≤ id → id ≤ 100 →
          SearchSucceeds 52 longCycleBoxes ((fun _ _ => 0) (id - 1)) id) →
        w'.counters = { success_runs := 0 + 1, failed_runs := 0, tries := 0 } ∧
        w'.out = [] ++ [Line.success 1]) ∧
      (¬ (∀ id, 1 ≤ id → id ≤ 100 →
          SearchSucceeds 52 longCycleBoxes ((fun _ _ => 0) (id - 1)) id) →
        ∃ k, 1 ≤ k ∧ k ≤ 100 ∧ SearchFails 52 longCycleBoxes ((fun _ _ => 0) (k - 1)) k ∧
          (∀ j, 1 ≤ j → j < k → SearchSucceeds 52 longCycleBoxes ((fun _ _ => 0) (j - 1)) j) ∧
          w'.counters = { success_runs := 0, failed_runs := 0 + 1, tries := 0 + k } ∧
          w'.out = [] ++ [Line.failed 1 k]) :=
  ⟨by decide, by decide,
    trialBody_records { Boxes := longCycleBoxes } (by decide) (fun _ _ => 0) 1 52 (by decide)⟩

theorem trial_deterministic_witness :
    IsDrawerArray exampleBoxes ∧ 52 ≤ 52 ∧
    ∃ prisonners prisonnerID w',
      trial 52 exampleBoxes (fun _ _ => 0) = .ok (prisonners, prisonnerID) ∧
      trial 52 exampleBoxes (fun _ k => k + 1) = .ok (prisonners, prisonnerID) ∧
      trialBody 52 (fun _ _ => 0) 1 { Boxes := exampleBoxes } = .ok w' ∧
      trialBody 52 (fun _ k => k + 1) 1 { Boxes := exampleBoxes } = .ok w' :=
  ⟨by decide, by decide,
    trial_deterministic { Boxes := exampleBoxes } (by decide) (fun _ _ => 0) (fun _ k => k + 1)
      1 52 (by decide)⟩

/-! ## The shuffle -/

theorem admissibleFrom_zero {random : Nat → Nat} :
    AdmissibleDraws random ↔ AdmissibleFrom random 0 100 := by
  unfold AdmissibleDraws AdmissibleFrom
  constructor
  · intro h j hj
    have := h j hj
    rw [Nat.zero_add]; omega
  · intro h i hi
    have := h i hi
    rw [Nat.zero_add] at this; omega

theorem AdmissibleFrom.tail {random : Nat → Nat} {i todo : Nat}
    (h : AdmissibleFrom random i (todo + 1)) : AdmissibleFrom random (i + 1) todo := by
  intro j hj
  have := h (j + 1) (by omega)
  have e : i + 1 + j = i + (j + 1) := by omega
  rw [e]; omega

theorem AdmissibleFrom.head {random : Nat → Nat} {i todo : Nat}
    (h : AdmissibleFrom random i (todo + 1)) : random i < todo + 1 := by
  have := h 0 (by omega)
  simpa using this

theorem set_take_drop (l : Nat) (L : List Nat) (m : Nat) :
    ∀ (Bx : List Nat) (i : Nat), i < Bx.length →
      (Bx.set i l).take (i + 1) ++ L ++ (Bx.set i l).drop (i + 1 + m)
        = Bx.take i ++ (l :: L) ++ Bx.drop (i + (m + 1)) := by
  intro Bx
  induction Bx with
  | nil => intro i hi; simp at hi
  | cons x Bx ih =>
    intro i hi
    cases i with
    | zero =>
      have e : 0 + 1 + m = m + 1 := by omega
      simp [e]
    | succ i =>
      have e1 : i + 1 + 1 + m = (i + 1 + m) + 1 := by omega
      have e2 : i + 1 + (m + 1) = (i + (m + 1)) + 1 := by omega
      have := ih i (by simpa using hi)
      rw [e1, e2]
      simp only [List.set_cons_succ, List.take_succ_cons, List.drop_succ_cons, List.cons_append]
      rw [List.append_assoc] at this ⊢
      rw [this]

/-- With admissible draws the shuffle loop stores the picked labels into the
positions `i, ..., i + todo - 1` and empties the pool. -/
theorem shuffleLoop_eq (random : Nat → Nat) :
    ∀ (todo i : Nat) (Bx pool : List Nat), pool.length = todo → i + todo ≤ Bx.length →
      todo ≤ 256 → AdmissibleFrom random i todo →
      shuffleLoop random todo i Bx pool =
        .ok (Bx.take i ++ shufflePicks random todo i pool ++ Bx.drop (i + todo), []) := by
  intro todo
  induction todo with
  | zero =>
    intro i Bx pool hp _ _ _
    have : pool = [] := List.length_eq_zero.mp hp
    subst this
    simp [shuffleLoop, shufflePicks]
  | succ todo ih =>
    intro i Bx pool hp hlen h256 hadm
    have hhead := hadm.head
    have hu : u8 (random i) = random i := u8_of_lt (by omega)
    have hlt : random i < pool.length := by omega
    rw [shuffleLoop]
    simp only [hu, List.getElem?_eq_getElem hlt]
    rw [ih (i + 1) (Bx.set i pool[random i]) (pool.eraseIdx (random i))
      (by rw [List.length_eraseIdx_of_lt hlt]; omega) (by simp; omega) (by omega) hadm.tail]
    rw [set_take_drop _ _ _ Bx i (by omega)]
    rw [shufflePicks, List.getD_eq_getElem _ _ hlt]

theorem perm_pick_eraseIdx :
    ∀ (pool : List Nat) (p : Nat) (hp : p < pool.length),
      (pool[p] :: pool.eraseIdx p).Perm pool := by
  intro pool
  induction pool with
  | nil => intro p hp; simp at hp
  | cons x pool ih =>
    intro p hp
    cases p with
    | zero => simp
    | succ p =>
      simp only [List.getElem_cons_succ, List.eraseIdx_cons_succ]
      exact (List.Perm.swap x _ _).trans ((ih p (by simpa using hp)).cons x)

theorem shufflePicks_perm (random : Nat → Nat) :
    ∀ (todo i : Nat) (pool : List Nat), pool.length = todo → AdmissibleFrom random i todo →
      (shufflePicks random todo i pool).Perm pool := by
  intro todo
  induction todo with
  | zero =>
    intro i pool hp _
    have : pool = [] := List.length_eq_zero.mp hp
    subst this
    simp [shufflePicks]
  | succ todo ih =>
    intro i pool hp hadm
    have hlt : random i < pool.length := by have := hadm.head; omega
    rw [shufflePicks, List.getD_eq_getElem _ _ hlt]
    exact ((ih (i + 1) _ (by rw [List.length_eraseIdx_of_lt hlt]; omega) hadm.tail).cons _).trans
      (perm_pick_eraseIdx pool _ hlt)

theorem shufflePicks_congr {r r' : Nat → Nat} :
    ∀ (todo i : Nat) (pool : List Nat), (∀ j, j < todo → r (i + j) = r' (i + j)) →
      shufflePicks r todo i pool = shufflePicks r' todo i pool := by
  intro todo
  induction todo with
  | zero => intro i pool _; simp [shufflePicks]
  | succ todo ih =>
    intro i pool h
    have h0 : r i = r' i := by simpa using h 0 (by omega)
    rw [shufflePicks, shufflePicks, h0]
    congr 1
    apply ih
    intro j hj
    have := h (j + 1) (by omega)
    have e : i + 1 + j = i + (j + 1) := by omega
    rw [e]; exact this

/-- Different admissible draws pick different label sequences. -/
theorem shufflePicks_inj {r r' : Nat → Nat} :
    ∀ (todo i : Nat) (pool : List Nat), pool.Nodup → pool.length = todo →
      AdmissibleFrom r i todo → AdmissibleFrom r' i todo →
      shufflePicks r todo i pool = shufflePicks r' todo i pool →
      ∀ j, j < todo → r (i + j) = r' (i + j) := by
  intro todo
  induction todo with
  | zero => intro i pool _ _ _ _ _ j hj; omega
  | succ todo ih =>
    intro i pool hnd hp hadm hadm' heq j hj
    have hlt : r i < pool.length := by have := hadm.head; omega
    have hlt' : r' i < pool.length := by have := hadm'.head; omega
    rw [shufflePicks, shufflePicks, List.getD_eq_getElem _ _ hlt,
      List.getD_eq_getElem _ _ hlt'] at heq
    have hhd : pool[r i] = pool[r' i] := (List.cons.inj heq).1
    have h0 : r i = r' i := (List.Nodup.getElem_inj_iff hnd).mp hhd
    have htl := (List.cons.inj heq).2
    rw [← h0] at htl
    cases j with
    | zero => simpa using h0
    | succ j =>
      have := ih (i + 1) (pool.eraseIdx (r i)) (hnd.sublist (List.eraseIdx_sublist _ _))
        (by rw [List.length_eraseIdx_of_lt hlt]; omega) hadm.tail hadm'.tail htl j (by omega)
      have e : i + 1 + j = i + (j + 1) := by omega
      rw [e] at this; exact this

/-- Every arrangement of the pool is picked by some admissible draws. -/
theorem shufflePicks_surj :
    ∀ (todo i : Nat) (pool L : List Nat), L.Perm pool → pool.length = todo →
      ∃ r, AdmissibleFrom r i todo ∧ shufflePicks r todo i pool = L := by
  intro todo
  induction todo with
  | zero =>
    intro i pool L hL hp
    have : pool = [] := List.length_eq_zero.mp hp
    subst this
    have : L = [] := List.Perm.eq_nil hL
    subst this
    exact ⟨fun _ => 0, fun j hj => by omega, by simp [shufflePicks]⟩
  | succ todo ih =>
    intro i pool L hL hp
    cases L with
    | nil =>
      have := hL.length_eq
      simp at this; omega
    | cons l L =>
      have hmem : l ∈ pool := hL.subset (List.mem_cons_self l L)
      obtain ⟨p, hlt, hpl⟩ := List.mem_iff_getElem.mp hmem
      have hL' : L.Perm (pool.eraseIdx p) := by
        have h1 := perm_pick_eraseIdx pool p hlt
        rw [hpl] at h1
        exact (hL.trans h1.symm).cons_inv
      obtain ⟨r', hadm', hr'⟩ := ih (i + 1) (pool.eraseIdx p) L hL'
        (by rw [List.length_eraseIdx_of_lt hlt]; omega)
      refine ⟨Function.update r' i p, ?_, ?_⟩
      · intro j hj
        cases j with
        | zero => simp; omega
        | succ j =>
          have hne : i + (j + 1) ≠ i := by omega
          rw [Function.update_noteq hne]
          have := hadm' j (by omega)
          have e : i + 1 + j = i + (j + 1) := by omega
          rw [e] at this; omega
      · rw [shufflePicks, Function.update_same, List.getD_eq_getElem _ _ hlt, hpl]
        congr 1
        rw [← hr']
        apply shufflePicks_congr
        intro j hj
        have hne : i + 1 + j ≠ i := by omega
        rw [Function.update_noteq hne]

theorem shufflePicks_length (random : Nat → Nat) :
    ∀ (todo i : Nat) (pool : List Nat), (shufflePicks random todo i pool).length = todo := by
  intro todo
  induction todo with
  | zero => intro i pool; simp [shufflePicks]
  | succ todo ih => intro i pool; simp [shufflePicks, ih]

/-- With admissible draws `randomize_box_labels` returns the picked labels. -/
theorem randomize_eq {random : Nat → Nat} (hadm : AdmissibleDraws random) {Boxes : List Nat}
    (hlen : Boxes.length = 100) :
    randomize_box_labels random Boxes = .ok (shufflePicks random 100 0 (List.range' 1 100)) := by
  unfold randomize_box_labels randomize_box_labels_state
  rw [shuffleLoop_eq random 100 0 Boxes _ (by simp) (by omega) (by omega)
    (admissibleFrom_zero.mp hadm)]
  have : List.drop 100 Boxes = [] := List.drop_eq_nil_of_le (by omega)
  simp [this]

theorem randomize_isDrawerArray {random : Nat → Nat} (hadm : AdmissibleDraws random) :
    IsDrawerArray (shufflePicks random 100 0 (List.range' 1 100)) :=
  shufflePicks_perm random 100 0 _ (by simp) (admissibleFrom_zero.mp hadm)

/-- In a drawer array every label of 1..100 sits in exactly one position. -/
theorem IsDrawerArray.unique_position {B : List Nat} (h : IsDrawerArray B) {l : Nat}
    (h1 : 1 ≤ l) (h2 : l ≤ 100) : ∃! i : Nat, B[i]? = some l := by
  obtain ⟨i, hi⟩ := List.mem_iff_getElem?.mp ((h.mem_iff l).mpr ⟨h1, h2⟩)
  refine ⟨i, hi, ?_⟩
  intro j hj
  obtain ⟨hi', ei⟩ := List.getElem?_eq_some.mp hi
  obtain ⟨hj', ej⟩ := List.getElem?_eq_some.mp hj
  have key : B[j] = B[i] := ej.trans ei.symm
  exact (List.Nodup.getElem_inj_iff h.nodup).mp key

/-- C2: for admissible draws (the `i`-th in `[0, 99 - i]`), `randomize_box_labels`
returns, and the array it leaves is a bijection between the 100 positions and
the labels 1..100: it has 100 entries, all distinct, all in `[1, 100]`, and
every label of 1..100 sits in exactly one position. -/
theorem randomize_box_labels_bijection (random : Nat → Nat) (hadm : AdmissibleDraws random)
    (Boxes : List Nat) (hlen : Boxes.length = 100) :
    ∃ B, randomize_box_labels random Boxes = .ok B ∧ IsDrawerArray B ∧
      B.length = 100 ∧ B.Nodup ∧ (∀ x ∈ B, 1 ≤ x ∧ x ≤ 100) ∧
      ∀ l, 1 ≤ l → l ≤ 100 → ∃! i : Nat, B[i]? = some l := by
  have hB := randomize_isDrawerArray hadm
  exact ⟨_, randomize_eq hadm hlen, hB, hB.length_eq, hB.nodup,
    fun x hx => (hB.mem_iff x).mp hx, fun l h1 h2 => hB.unique_position h1 h2⟩

theorem randomize_box_labels_bijection_witness :
    AdmissibleDraws (fun _ => 0) ∧ (List.replicate 100 0).length = 100 ∧
    ∃ B, randomize_box_labels (fun _ => 0) (List.replicate 100 0) = .ok B ∧ IsDrawerArray B ∧
      B.length = 100 ∧ B.Nodup ∧ (∀ x ∈ B, 1 ≤ x ∧ x ≤ 100) ∧
      ∀ l, 1 ≤ l → l ≤ 100 → ∃! i : Nat, B[i]? = some l :=
  ⟨fun _ _ => Nat.zero_le _, by simp,
    randomize_box_labels_bijection (fun _ => 0) (fun _ _ => Nat.zero_le _)
      (List.replicate 100 0) (by simp)⟩

/-- C7: counted over admissible draw sequences, `randomize_box_labels` is a
bijection onto the drawer arrays: every admissible sequence yields a permutation
of 1..100, and every permutation of 1..100 is the result of an admissible
sequence whose first 100 draws are determined by it. -/
theorem randomize_box_labels_uniform (Boxes : List Nat) (hlen : Boxes.length = 100) :
    (∀ random, AdmissibleDraws random →
      ∃ B, randomize_box_labels random Boxes = .ok B ∧ IsDrawerArray B) ∧
    (∀ B, IsDrawerArray B →
      ∃ random, AdmissibleDraws random ∧ randomize_box_labels random Boxes = .ok B ∧
        ∀ random', AdmissibleDraws random' → randomize_box_labels random' Boxes = .ok B →
          ∀ i, i < 100 → random' i = random i) := by
  constructor
  · intro random hadm
    exact ⟨_, randomize_eq hadm hlen, randomize_isDrawerArray hadm⟩
  · intro B hB
    obtain ⟨r, hadm, hr⟩ := shufflePicks_surj 100 0 (List.range' 1 100) B hB (by simp)
    have hadm0 : AdmissibleDraws r := admissibleFrom_zero.mpr hadm
    refine ⟨r, hadm0, by rw [randomize_eq hadm0 hlen, hr], ?_⟩
    intro r' hadm' hr' i hi
    rw [randomize_eq hadm' hlen] at hr'
    have heq : shufflePicks r' 100 0 (List.range' 1 100)
        = shufflePicks r 100 0 (List.range' 1 100) := by
      rw [hr]; exact Except.ok.inj hr'
    have := shufflePicks_inj 100 0 (List.range' 1 100) (List.nodup_range' 1 100) (by simp)
      (admissibleFrom_zero.mp hadm') hadm heq i hi
    simpa using this

theorem randomize_box_labels_uniform_witness :
    (List.replicate 100 0).length = 100 ∧
    ((∀ random, AdmissibleDraws random →
      ∃ B, randomize_box_labels random (List.replicate 100 0) = .ok B ∧ IsDrawerArray B) ∧
    (∀ B, IsDrawerArray B →
      ∃ random, AdmissibleDraws random ∧
        randomize_box_labels random (List.replicate 100 0) = .ok B ∧
        ∀ random', AdmissibleDraws random' →
          randomize_box_labels random' (List.replicate 100 0) = .ok B →
          ∀ i, i < 100 → random' i = random i)) :=
  ⟨by simp, randomize_box_labels_uniform (List.replicate 100 0) (by simp)⟩

/-! ## The run loop and the report -/

theorem failedLines_append (a b : List Line) :
    failedLines (a ++ b) = failedLines a + failedLines b := by
  induction a with
  | nil => simp [failedLines]
  | cons x a ih =>
    cases x with
    | failed r k => rw [List.cons_append, failedLines, failedLines, ih]; omega
    | success r => rw [List.cons_append, failedLines, failedLines, ih]

theorem successLines_append (a b : List Line) :
    successLines (a ++ b) = successLines a + successLines b := by
  induction a with
  | nil => simp [successLines]
  | cons x a ih =>
    cases x with
    | failed r k => rw [List.cons_append, successLines, successLines, ih]
    | success r => rw [List.cons_append, successLines, successLines, ih]; omega

theorem ordinalSum_append (a b : List Line) :
    ordinalSum (a ++ b) = ordinalSum a + ordinalSum b := by
  induction a with
  | nil => simp [ordinalSum]
  | cons x a ih =>
    cases x with
    | failed r k => rw [List.cons_append, ordinalSum, ordinalSum, ih]; omega
    | success r => rw [List.cons_append, ordinalSum, ordinalSum, ih]

/-- One run with admissible shuffle draws: the array becomes a drawer array and
exactly one of the two outcomes is recorded. -/
theorem runBody_cases {e : Entropy} (hadm : AdmissibleDraws e.shuffle) {w : Sim}
    (hlen : w.Boxes.length = 100) (run : Nat) {fuel : Nat} (hf : 52 ≤ fuel) :
    ∃ B, IsDrawerArray B ∧
      (runBody fuel e run w =
          .ok { Boxes := B
                counters := { w.counters with success_runs := w.counters.success_runs + 1 }
                out := w.out ++ [Line.success run] } ∨
       ∃ k, 1 ≤ k ∧ k ≤ 100 ∧
        runBody fuel e run w =
          .ok { Boxes := B
                counters := { w.counters with
                  failed_runs := w.counters.failed_runs + 1
                  tries := w.counters.tries + k }
                out := w.out ++ [Line.failed run k] }) := by
  have hB := randomize_isDrawerArray hadm
  refine ⟨_, hB, ?_⟩
  unfold runBody
  rw [randomize_eq hadm hlen]
  simp only
  rcases first_long_cycle (shufflePicks e.shuffle 100 0 (List.range' 1 100)) with
    hall | ⟨k, k1, k2, hk, hbefore⟩
  · left
    exact trialBody_pass (w := { w with Boxes := _ }) hB e.search run hf hall
  · right
    exact ⟨k, k1, k2,
      trialBody_stop (w := { w with Boxes := _ }) hB e.search run hf k1 k2 hk hbefore⟩

/-- The first `n + m` iterations of the run loop are its first `n` iterations
followed by `m` more. -/
theorem runLoop_add (fuel : Nat) (entropy : Nat → Entropy) (m : Nat) :
    ∀ (n run : Nat) (w : Sim),
      runLoop fuel entropy (n + m) run w =
        match runLoop fuel entropy n run w with
        | .error err => .error err
        | .ok w1 => runLoop fuel entropy m (run + n) w1 := by
  intro n
  induction n with
  | zero => intro run w; simp [runLoop]
  | succ n ih =>
    intro run w
    have e : n + 1 + m = (n + m) + 1 := by omega
    rw [e, runLoop, runLoop]
    cases hb : runBody fuel (entropy run) run w with
    | error err => rfl
    | ok w1 =>
      simp only
      rw [ih (run + 1) w1]
      have e2 : run + 1 + n = run + (n + 1) := by omega
      rw [e2]

theorem runLoop_succ (fuel : Nat) (entropy : Nat → Entropy) (n run : Nat) (w : Sim) :
    runLoop fuel entropy (n + 1) run w =
      match runLoop fuel entropy n run w with
      | .error err => .error err
      | .ok w1 => runBody fuel (entropy (run + n)) (run + n) w1 := by
  rw [runLoop_add fuel entropy 1 n run w]
  cases runLoop fuel entropy n run w with
  | error err => rfl
  | ok w1 =>
    simp only [runLoop]
    cases runBody fuel (entropy (run + n)) (run + n) w1 <;> rfl

/-- The invariant of the run loop after `n` iterations. -/
theorem runLoop_invariant (entropy : Nat → Entropy)
    (hadm : ∀ r, AdmissibleDraws (entropy r).shuffle) {fuel : Nat} (hf : 52 ≤ fuel) :
    ∀ n, ∃ w, runLoop fuel entropy n 1 {} = .ok w ∧ w.Boxes.length = 100 ∧
      w.counters.success_runs + w.counters.failed_runs = n ∧
      w.counters.success_runs = successLines w.out ∧
      w.counters.failed_runs = failedLines w.out ∧
      w.counters.tries = ordinalSum w.out ∧
      w.out.length = n ∧
      w.counters.tries ≤ 100 * w.counters.failed_runs := by
  intro n
  induction n with
  | zero =>
    exact ⟨{}, rfl, by simp, rfl, rfl, rfl, rfl, rfl, by simp⟩
  | succ n ih =>
    obtain ⟨w, hw, hlen, h1, h2, h3, h4, h5, h6⟩ := ih
    rw [runLoop_succ, hw]
    simp only
    obtain ⟨B, hB, hcase | ⟨k, k1, k2, hcase⟩⟩ := runBody_cases (hadm (1 + n)) hlen (1 + n) hf
    · refine ⟨_, hcase, hB.length_eq, ?_, ?_, ?_, ?_, ?_, ?_⟩
      · simp only; omega
      · simp only [successLines_append, successLines]; omega
      · simp only [failedLines_append, failedLines]; omega
      · simp only [ordinalSum_append, ordinalSum]; omega
      · simp only [List.length_append, List.length_singleton]; omega
      · simpa using h6
    · refine ⟨_, hcase, hB.length_eq, ?_, ?_, ?_, ?_, ?_, ?_⟩
      · simp only; omega
      · simp only [successLines_append, successLines]; omega
      · simp only [failedLines_append, failedLines]; omega
      · simp only [ordinalSum_append, ordinalSum]; omega
      · simp only [List.length_append, List.length_singleton]; omega
      · simp only; omega

/-- For at most `run_counts` iterations the counters stay far below `2^31`, the
range of `int`. -/
theorem counters_small (entropy : Nat → Entropy)
    (hadm : ∀ r, AdmissibleDraws (entropy r).shuffle) {fuel : Nat} (hf : 52 ≤ fuel)
    {n : Nat} (hn : n ≤ run_counts) :
    ∃ w, runLoop fuel entropy n 1 {} = .ok w ∧ w.counters.success_runs ≤ 10000 ∧
      w.counters.failed_runs ≤ 10000 ∧ w.counters.tries ≤ 1000000 := by
  obtain ⟨w, hw, _, h1, _, _, _, _, h6⟩ := runLoop_invariant entropy hadm hf n
  unfold run_counts at hn
  exact ⟨w, hw, by omega, by omega, by omega⟩

/-- C8: after `n ≤ run_counts` iterations of the run loop (with admissible
shuffle draws) `success_runs + failed_runs = n`; the two counters count the
success lines and the failure lines written so far, `tries` is the sum of the
ordinals reported by the failure lines, and the next iteration increments
exactly one of the two counters, adding its ordinal to `tries` only when it is
the failure counter. The counters stay inside the range of `int`. -/
theorem run_loop_aggregation (entropy : Nat → Entropy)
    (hadm : ∀ r, AdmissibleDraws (entropy r).shuffle) (fuel : Nat) (hfuel : 52 ≤ fuel)
    (n : Nat) (hn : n ≤ run_counts) :
    ∃ w, runLoop fuel entropy n 1 {} = .ok w ∧
      w.counters.success_runs + w.counters.failed_runs = n ∧
      w.out.length = n ∧
      w.counters.success_runs = successLines w.out ∧
      w.counters.failed_runs = failedLines w.out ∧
      w.counters.tries = ordinalSum w.out ∧
      w.counters.tries < 2 ^ 31 ∧
      (n < run_counts → ∃ w', runLoop fuel entropy (n + 1) 1 {} = .ok w' ∧
        ((w'.counters = { w.counters with success_runs := w.counters.success_runs + 1 } ∧
            w'.out = w.out ++ [Line.success (n + 1)]) ∨
          ∃ k, w'.counters = { w.counters with
                  failed_runs := w.counters.failed_runs + 1
                  tries := w.counters.tries + k } ∧
            w'.out = w.out ++ [Line.failed (n + 1) k])) := by
  obtain ⟨w, hw, hlen, h1, h2, h3, h4, h5, h6⟩ := runLoop_invariant entropy hadm hfuel n
  have hsmall : w.counters.tries < 2 ^ 31 := by
    unfold run_counts at hn
    omega
  refine ⟨w, hw, h1, h5, h2, h3, h4, hsmall, ?_⟩
  intro _
  rw [runLoop_succ, hw]
  simp only
  have e : 1 + n = n + 1 := by omega
  obtain ⟨B, _, hcase | ⟨k, _, _, hcase⟩⟩ := runBody_cases (hadm (1 + n)) hlen (1 + n) hfuel
  · exact ⟨_, hcase, Or.inl ⟨rfl, by rw [e]⟩⟩
  · exact ⟨_, hcase, Or.inr ⟨k, rfl, by rw [e]⟩⟩

theorem run_loop_aggregation_witness :
    (∀ r, AdmissibleDraws (zeroEntropy r).shuffle) ∧
    52 ≤ 52 ∧ 1 ≤ run_counts ∧
    ∃ w, runLoop 52 zeroEntropy 1 1 {} = .ok w ∧
      w.counters.success_runs + w.counters.failed_runs = 1 ∧
      w.out.length = 1 ∧
      w.counters.success_runs = successLines w.out ∧
      w.counters.failed_runs = failedLines w.out ∧
      w.counters.tries = ordinalSum w.out ∧
      w.counters.tries < 2 ^ 31 ∧
      (1 < run_counts → ∃ w', runLoop 52 zeroEntropy (1 + 1) 1 {} = .ok w' ∧
        ((w'.counters = { w.counters with success_runs := w.counters.success_runs + 1 } ∧
            w'.out = w.out ++ [Line.success (1 + 1)]) ∨
          ∃ k, w'.counters = { w.counters with
                  failed_runs := w.counters.failed_runs + 1
                  tries := w.counters.tries + k } ∧
            w'.out = w.out ++ [Line.failed (1 + 1) k])) :=
  ⟨fun _ _ _ => Nat.zero_le _, by decide, by decide,
    run_loop_aggregation zeroEntropy (fun _ _ _ => Nat.zero_le _) 52
      (by decide) 1 (by decide)⟩

/-- With no configured run, and with one run that succeeds, the report holds the
unguarded float quotient `0 / 0`, which is NaN. -/
theorem report_average_nan_example :
    mainWith 52 zeroEntropy 0 =
        .ok ({},
          { runs := 0, success := 0, failed := 0
            success_rate := FloatQuot.nan, average := FloatQuot.nan }) ∧
    mainWith 52 zeroEntropy 1 =
        .ok ({ Boxes := List.range' 1 100
               counters := { success_runs := 1, failed_runs := 0, tries := 0 }
               out := [Line.success 1] },
          { runs := 1, success := 1, failed := 0
            success_rate := FloatQuot.quot 1 1, average := FloatQuot.nan }) :=
  ⟨by rfl, by rfl⟩

/-- C9 (amended): with admissible shuffle draws `main` returns for every number
of runs, the reported average is always the float quotient of `tries` by
`failed_runs`, computed without a guard, and when the failure count is zero it
is `0 / 0`, NaN. -/
theorem report_average_unguarded (entropy : Nat → Entropy)
    (hadm : ∀ r, AdmissibleDraws (entropy r).shuffle) (fuel : Nat) (hfuel : 52 ≤ fuel)
    (n : Nat) :
    ∃ w r, mainWith fuel entropy n = .ok (w, r) ∧
      r.failed = w.counters.failed_runs ∧
      r.average = fdiv w.counters.tries w.counters.failed_runs ∧
      (r.failed = 0 → w.counters.tries = 0 ∧ r.average = FloatQuot.nan) := by
  obtain ⟨w, hw, _, _, _, _, _, _, h6⟩ := runLoop_invariant entropy hadm hfuel n
  refine ⟨w, report n w.counters, ?_, rfl, rfl, ?_⟩
  · unfold mainWith
    rw [hw]
  · intro h0
    have h0' : w.counters.failed_runs = 0 := h0
    have ht : w.counters.tries = 0 := by rw [h0'] at h6; omega
    exact ⟨ht, by simp [report, fdiv, h0', ht]⟩

theorem report_average_unguarded_witness :
    (∀ r, AdmissibleDraws (zeroEntropy r).shuffle) ∧
    52 ≤ 52 ∧
    ∃ w r, mainWith 52 zeroEntropy 1 = .ok (w, r) ∧
      r.failed = w.counters.failed_runs ∧
      r.average = fdiv w.counters.tries w.counters.failed_runs ∧
      (r.failed = 0 → w.counters.tries = 0 ∧ r.average = FloatQuot.nan) :=
  ⟨fun _ _ _ => Nat.zero_le _, by decide,
    report_average_unguarded zeroEntropy (fun _ _ _ => Nat.zero_le _)
      52 (by decide) 1⟩

theorem cycleSearch_visited (B : List Nat) (id : Nat) :
    (cycleSearch B id).prisonner.visited
      = orbitPrefix B (id - 1) (min (cycleLength B (id - 1)) 50) := by
  unfold cycleSearch orbitPrefix
  by_cases hL : cycleLength B (id - 1) ≤ 50
  · rw [if_pos hL, Nat.min_eq_left hL]; rfl
  · rw [if_neg hL, Nat.min_eq_right (by omega)]; rfl

theorem orbitPrefix_nodup {B : List Nat} (h : IsDrawerArray B) {s : Nat} (hs : s < 100)
    {k : Nat} (hk : k ≤ cycleLength B s) : (orbitPrefix B s k).Nodup := by
  obtain ⟨_, _, _, c4⟩ := cycleLength_spec h hs
  unfold orbitPrefix
  refine List.Nodup.map_on ?_ (List.nodup_range k)
  intro a ha b hb e
  rw [List.mem_range] at ha hb
  by_contra hne
  rcases Nat.lt_or_gt_of_ne hne with hlt | hlt
  · exact h.iterate_ne hs (fun j j1 j2 => c4 j j1 (by omega)) hlt e
  · exact h.iterate_ne hs (fun j j1 j2 => c4 j j1 (by omega)) hlt e.symm

theorem orbitPrefix_onCycle (B : List Nat) (s k : Nat) :
    ∀ v ∈ orbitPrefix B s k, OnCycle B s v := by
  intro v hv
  obtain ⟨j, _, rfl⟩ := List.mem_map.mp hv
  exact ⟨j, rfl⟩

/-- The drawer before the return of the orbit holds the label `s + 1`. -/
theorem label_before_return {B : List Nat} (h : IsDrawerArray B) {s : Nat} (hs : s < 100)
    {L : Nat} (hL : 1 ≤ L) (hret : (nextDrawer B)^[L] s = s) :
    B[(nextDrawer B)^[L - 1] s]? = some (s + 1) := by
  obtain ⟨l, hl, l1, l2⟩ := h.read (h.iterate_lt hs (L - 1))
  have e : (nextDrawer B)^[L - 1 + 1] s = l - 1 := by
    rw [Function.iterate_succ_apply', nextDrawer_of_read hl]
  have e' : L - 1 + 1 = L := by omega
  rw [e', hret] at e
  rw [hl]; congr 1; omega

/-- C11: on a drawer array the `visited` list left by `prisonner_attempt` is
the first `min L 50` drawers of the orbit `id-1, Boxes[id-1]-1, ...` (`L` the
cycle length): every visited drawer lies on the cycle of the prisoner's number,
they come in traversal order without repetition, and on success the last one is
the drawer that holds the label `id`. -/
theorem visited_is_orbit_prefix (Boxes : List Nat) (hperm : IsDrawerArray Boxes)
    (id : Nat) (h1 : 1 ≤ id) (h2 : id ≤ 100) (random : Nat → Nat) (fuel : Nat)
    (hfuel : 52 ≤ fuel) :
    ∃ p, prisonner_attempt fuel Boxes random freshPrisonner id = .ok p ∧
      p.visited = (List.range (min (cycleLength Boxes (id - 1)) 50)).map
        (fun j => (nextDrawer Boxes)^[j] (id - 1)) ∧
      (∀ v ∈ p.visited, OnCycle Boxes (id - 1) v) ∧
      p.visited.Nodup ∧
      (p.success = true →
        ∃ last, p.visited.getLast? = some last ∧ Boxes[last]? = some id) := by
  have hs : id - 1 < 100 := by omega
  obtain ⟨c1, _, c3, _⟩ := cycleLength_spec hperm hs
  refine ⟨_, attempt_eq hperm h1 h2 random hfuel, cycleSearch_visited Boxes id, ?_, ?_, ?_⟩
  · rw [cycleSearch_visited]; exact orbitPrefix_onCycle _ _ _
  · rw [cycleSearch_visited]; exact orbitPrefix_nodup hperm hs (Nat.min_le_left _ _)
  · intro hsucc
    have hL := (cycleSearch_success Boxes id).mp hsucc
    refine ⟨(nextDrawer Boxes)^[cycleLength Boxes (id - 1) - 1] (id - 1), ?_, ?_⟩
    · rw [cycleSearch_visited, Nat.min_eq_left hL]
      unfold orbitPrefix
      obtain ⟨m, hm⟩ : ∃ m, cycleLength Boxes (id - 1) = m + 1 :=
        ⟨cycleLength Boxes (id - 1) - 1, by omega⟩
      rw [hm, List.range_succ, List.map_append, List.map_singleton, List.getLast?_concat]
      simp
    · have := label_before_return hperm hs c1 c3
      have e : id - 1 + 1 = id := by omega
      rw [e] at this; exact this

set_option maxRecDepth 100000 in
theorem visited_is_orbit_prefix_witness :
    IsDrawerArray exampleBoxes ∧ 1 ≤ 3 ∧ 3 ≤ 100 ∧ 52 ≤ 52 ∧
    ∃ p, prisonner_attempt 52 exampleBoxes (fun _ => 0) freshPrisonner 3 = .ok p ∧
      p.visited = (List.range (min (cycleLength exampleBoxes (3 - 1)) 50)).map
        (fun j => (nextDrawer exampleBoxes)^[j] (3 - 1)) ∧
      (∀ v ∈ p.visited, OnCycle exampleBoxes (3 - 1) v) ∧
      p.visited.Nodup ∧
      (p.success = true →
        ∃ last, p.visited.getLast? = some last ∧ exampleBoxes[last]? = some 3) :=
  ⟨by decide, by decide, by decide, by decide,
    visited_is_orbit_prefix exampleBoxes (by decide) 3 (by decide) (by decide) (fun _ => 0) 52
      (by decide)⟩

theorem accounted_fresh : Accounted freshPrisonner := by
  unfold Accounted freshPrisonner
  simp

theorem Accounted.length_le {p : Prisonner} (h : Accounted p) : p.visited.length ≤ 50 := by
  obtain ⟨_, h2, h3, _⟩ := h
  by_cases hs : p.success = true
  · have := h3 hs
    rw [if_pos hs] at h2; omega
  · rw [if_neg hs] at h2; omega

/-- The re-roll loop leaves the record alone and ends on an unvisited drawer. -/
theorem rerollLoop_ok (random : Nat → Nat) :
    ∀ (fuel : Nat) (s s' : Search), rerollLoop random fuel s = .ok s' →
      s'.prisonner = s.prisonner ∧ s'.box_explore_id ∉ s.prisonner.visited ∧
      s.drawn ≤ s'.drawn := by
  intro fuel
  induction fuel with
  | zero => intro s s' h; simp [rerollLoop] at h
  | succ fuel ih =>
    intro s s' h
    rw [rerollLoop] at h
    by_cases hv : s.box_explore_id ∈ s.prisonner.visited
    · rw [if_pos hv] at h
      obtain ⟨e1, e2, e3⟩ := ih _ _ h
      exact ⟨e1, e2, by simp only at e3; omega⟩
    · rw [if_neg hv] at h
      obtain rfl := Except.ok.inj h
      exact ⟨rfl, hv, le_rfl⟩

/-- The follow loop keeps the bookkeeping of the record, for every array. -/
theorem followLoop_accounted (B : List Nat) (id : Nat) :
    ∀ (fuel : Nat) (s s' : Search), Accounted s.prisonner →
      followLoop B id fuel s = .ok s' → Accounted s'.prisonner ∧ s'.drawn = s.drawn := by
  intro fuel
  induction fuel with
  | zero => intro s s' _ h; simp [followLoop] at h
  | succ fuel ih =>
    intro s s' hacc h
    rw [followLoop] at h
    by_cases hc : s.prisonner.remainingAttempts ≠ 0 ∧ s.box_explore_id ∉ s.prisonner.visited
        ∧ s.prisonner.success = false
    · rw [if_pos hc] at h
      obtain ⟨hrem, hnew, hsucc⟩ := hc
      obtain ⟨a1, a2, _, a4⟩ := hacc
      have a2' : s.prisonner.remainingAttempts + s.prisonner.visited.length = 50 := by
        simpa [hsucc] using a2
      have hnd : (s.prisonner.visited ++ [s.box_explore_id]).Nodup := by
        rw [List.nodup_append]
        exact ⟨a1, List.nodup_singleton _, by
          intro x hx hx'
          rw [List.mem_singleton] at hx'
          subst hx'
          exact hnew hx⟩
      cases hread : B[s.box_explore_id]? with
      | none => rw [hread] at h; exact absurd h (by simp)
      | some label =>
        rw [hread] at h
        simp only at h
        by_cases hl : label = id
        · rw [if_pos hl] at h
          obtain rfl := Except.ok.inj h
          refine ⟨⟨hnd, ?_, fun _ => hrem, a4⟩, rfl⟩
          simp only [List.length_append, List.length_singleton, if_true]
          omega
        · rw [if_neg hl] at h
          have hacc' : Accounted
              { success := s.prisonner.success
                remainingAttempts := u8 (s.prisonner.remainingAttempts + 255)
                visited := s.prisonner.visited ++ [s.box_explore_id] } := by
            refine ⟨hnd, ?_, ?_, ?_⟩
            · simp only [hsucc, List.length_append, List.length_singleton, Bool.false_eq_true,
                if_false]
              rw [u8_pred (by omega) (by omega)]
              omega
            · intro hs; simp only [hsucc] at hs; exact absurd hs (by simp)
            · simp only
              rw [u8_pred (by omega) (by omega)]
              omega
          have key := ih _ s' hacc' h
          exact ⟨key.1, key.2⟩
    · rw [if_neg hc] at h
      obtain rfl := Except.ok.inj h
      exact ⟨hacc, rfl⟩

/-- The outer loop keeps the bookkeeping of the record, for every array and
every random engine. -/
theorem attemptLoop_accounted (B : List Nat) (random : Nat → Nat) (id : Nat) :
    ∀ (fuel : Nat) (s s' : Search), Accounted s.prisonner →
      attemptLoop B random id fuel s = .ok s' → Accounted s'.prisonner := by
  intro fuel
  induction fuel with
  | zero => intro s s' _ h; simp [attemptLoop] at h
  | succ fuel ih =>
    intro s s' hacc h
    rw [attemptLoop] at h
    by_cases hc : s.prisonner.remainingAttempts ≠ 0 ∧ s.prisonner.success = false
    · rw [if_pos hc] at h
      cases hr : rerollLoop random fuel s with
      | error e => rw [hr] at h; exact absurd h (by simp)
      | ok s1 =>
        rw [hr] at h
        simp only at h
        obtain ⟨e1, _, _⟩ := rerollLoop_ok random fuel s s1 hr
        cases hfl : followLoop B id fuel s1 with
        | error e => rw [hfl] at h; exact absurd h (by simp)
        | ok s2 =>
          rw [hfl] at h
          simp only at h
          exact ih s2 s' (followLoop_accounted B id fuel s1 s2 (by rw [e1]; exact hacc) hfl).1 h
    · rw [if_neg hc] at h
      obtain rfl := Except.ok.inj h
      exact hacc

theorem attempt_accounted {fuel : Nat} {B : List Nat} {random : Nat → Nat} {id : Nat}
    {p : Prisonner} (h : prisonner_attempt fuel B random freshPrisonner id = .ok p) :
    Accounted p := by
  unfold prisonner_attempt at h
  cases hst : prisonner_attempt_state fuel B random freshPrisonner id with
  | error e => rw [hst] at h; exact absurd h (by simp)
  | ok s =>
    rw [hst] at h
    obtain rfl := Except.ok.inj h
    exact attemptLoop_accounted B random id fuel _ s accounted_fresh hst

/-- The outer loop ends only with the budget used up or the label found. -/
theorem attemptLoop_exit (B : List Nat) (random : Nat → Nat) (id : Nat) :
    ∀ (fuel : Nat) (s s' : Search), attemptLoop B random id fuel s = .ok s' →
      s'.prisonner.remainingAttempts = 0 ∨ s'.prisonner.success = true := by
  intro fuel
  induction fuel with
  | zero => intro s s' h; simp [attemptLoop] at h
  | succ fuel ih =>
    intro s s' h
    rw [attemptLoop] at h
    by_cases hc : s.prisonner.remainingAttempts ≠ 0 ∧ s.prisonner.success = false
    · rw [if_pos hc] at h
      cases hr : rerollLoop random fuel s with
      | error e => rw [hr] at h; exact absurd h (by simp)
      | ok s1 =>
        rw [hr] at h
        simp only at h
        cases hfl : followLoop B id fuel s1 with
        | error e => rw [hfl] at h; exact absurd h (by simp)
        | ok s2 =>
          rw [hfl] at h
          exact ih s2 s' h
    · rw [if_neg hc] at h
      obtain rfl := Except.ok.inj h
      by_cases h0 : s.prisonner.remainingAttempts = 0
      · exact Or.inl h0
      · right
        by_contra hs
        exact hc ⟨h0, by simpa using hs⟩

theorem attempt_state_accounted {fuel : Nat} {B : List Nat} {random : Nat → Nat} {id : Nat}
    {s : Search} (h : prisonner_attempt_state fuel B random freshPrisonner id = .ok s) :
    Accounted s.prisonner ∧
      (s.prisonner.remainingAttempts = 0 ∨ s.prisonner.success = true) :=
  ⟨attemptLoop_accounted B random id fuel _ s accounted_fresh h,
    attemptLoop_exit B random id fuel _ s h⟩

/-- On the example array prisoner 1 opens drawers 0 and 1 and has 49 attempts
left: the opening that finds the label is not charged. -/
theorem successful_opening_not_charged :
    prisonner_attempt 52 exampleBoxes (fun _ => 0) freshPrisonner 1 =
        .ok { success := true, remainingAttempts := 49, visited := [0, 1] } ∧
      (49 : Nat) ≠ 50 - [0, 1].length :=
  ⟨by rfl, by decide⟩

/-- C12 (amended): at the end of a prisoner's turn, for every array and random
engine, every opened drawer except the one in which the label is found has cost
one attempt: after a failure `remainingAttempts = 50 - visited.length = 0`,
after a success `remainingAttempts = 51 - visited.length`. -/
theorem attempts_accounting (fuel : Nat) (Boxes : List Nat) (random : Nat → Nat) (id : Nat)
    (p : Prisonner)
    (hrun : prisonner_attempt fuel Boxes random freshPrisonner id = .ok p) :
    (p.success = false →
      p.remainingAttempts = 50 - p.visited.length ∧ p.remainingAttempts = 0) ∧
    (p.success = true →
      p.remainingAttempts = 51 - p.visited.length ∧ 1 ≤ p.visited.length ∧
      p.remainingAttempts ≠ 0) ∧
    p.visited.length ≤ 50 := by
  unfold prisonner_attempt at hrun
  cases hst : prisonner_attempt_state fuel Boxes random freshPrisonner id with
  | error e => rw [hst] at hrun; exact absurd hrun (by simp)
  | ok s =>
    rw [hst] at hrun
    obtain rfl := Except.ok.inj hrun
    obtain ⟨hacc, hexit⟩ := attempt_state_accounted hst
    have hlen := hacc.length_le
    obtain ⟨_, h2, h3, h4⟩ := hacc
    refine ⟨?_, ?_, hlen⟩
    · intro hs
      rw [hs] at h2
      simp only [Bool.false_eq_true, if_false] at h2
      rcases hexit with h0 | h1
      · exact ⟨by omega, h0⟩
      · rw [hs] at h1; exact absurd h1 (by simp)
    · intro hs
      have := h3 hs
      rw [if_pos hs] at h2
      exact ⟨by omega, by omega, this⟩

theorem attempts_accounting_witness :
    prisonner_attempt 52 exampleBoxes (fun _ => 0) freshPrisonner 1 =
        .ok { success := true, remainingAttempts := 49, visited := [0, 1] } ∧
    (((⟨true, 49, [0, 1]⟩ : Prisonner).success = false →
      (⟨true, 49, [0, 1]⟩ : Prisonner).remainingAttempts
          = 50 - (⟨true, 49, [0, 1]⟩ : Prisonner).visited.length ∧
      (⟨true, 49, [0, 1]⟩ : Prisonner).remainingAttempts = 0) ∧
    ((⟨true, 49, [0, 1]⟩ : Prisonner).success = true →
      (⟨true, 49, [0, 1]⟩ : Prisonner).remainingAttempts
          = 51 - (⟨true, 49, [0, 1]⟩ : Prisonner).visited.length ∧
      1 ≤ (⟨true, 49, [0, 1]⟩ : Prisonner).visited.length ∧
      (⟨true, 49, [0, 1]⟩ : Prisonner).remainingAttempts ≠ 0) ∧
    (⟨true, 49, [0, 1]⟩ : Prisonner).visited.length ≤ 50) :=
  ⟨by rfl, attempts_accounting 52 exampleBoxes (fun _ => 0) 1 ⟨true, 49, [0, 1]⟩ (by rfl)⟩

/-- The follow loop only appends to `visited`. -/
theorem followLoop_visited_append (B : List Nat) (id : Nat) :
    ∀ (fuel : Nat) (s s' : Search), followLoop B id fuel s = .ok s' →
      ∃ more, s'.prisonner.visited = s.prisonner.visited ++ more := by
  intro fuel
  induction fuel with
  | zero => intro s s' h; simp [followLoop] at h
  | succ fuel ih =>
    intro s s' h
    rw [followLoop] at h
    by_cases hc : s.prisonner.remainingAttempts ≠ 0 ∧ s.box_explore_id ∉ s.prisonner.visited
        ∧ s.prisonner.success = false
    · rw [if_pos hc] at h
      cases hread : B[s.box_explore_id]? with
      | none => rw [hread] at h; exact absurd h (by simp)
      | some label =>
        rw [hread] at h
        simp only at h
        by_cases hl : label = id
        · rw [if_pos hl] at h
          obtain rfl := Except.ok.inj h
          exact ⟨[s.box_explore_id], rfl⟩
        · rw [if_neg hl] at h
          obtain ⟨more, hm⟩ := ih _ s' h
          exact ⟨s.box_explore_id :: more, by rw [hm]; simp⟩
    · rw [if_neg hc] at h
      obtain rfl := Except.ok.inj h
      exact ⟨[], by simp⟩

/-- When its guard holds, the first thing the follow loop does is to log the
drawer it starts on. -/
theorem followLoop_opens_first (B : List Nat) (id : Nat) (fuel : Nat) (s s' : Search)
    (hrem : s.prisonner.remainingAttempts ≠ 0) (hnew : s.box_explore_id ∉ s.prisonner.visited)
    (hsucc : s.prisonner.success = false) (h : followLoop B id fuel s = .ok s') :
    ∃ more, s'.prisonner.visited = s.prisonner.visited ++ s.box_explore_id :: more := by
  cases fuel with
  | zero => simp [followLoop] at h
  | succ fuel =>
    rw [followLoop, if_pos ⟨hrem, hnew, hsucc⟩] at h
    cases hread : B[s.box_explore_id]? with
    | none => rw [hread] at h; exact absurd h (by simp)
    | some label =>
      rw [hread] at h
      simp only at h
      by_cases hl : label = id
      · rw [if_pos hl] at h
        obtain rfl := Except.ok.inj h
        exact ⟨[], rfl⟩
      · rw [if_neg hl] at h
        obtain ⟨more, hm⟩ := followLoop_visited_append B id fuel _ s' h
        exact ⟨more, by rw [hm]; simp⟩

/-- C14: for every array and every random engine on which `prisonner_attempt`
returns, `visited` has no duplicate and at most 50 entries, and the attempts
are counted against one budget of 50 across all restarts; in every pass of the
outer loop the re-roll loop, when it returns, leaves the record (so
`remainingAttempts`) as it was and ends on a drawer that is not in `visited`,
and that drawer is the next one the follow loop opens. -/
theorem restart_keeps_budget (fuel : Nat) (Boxes : List Nat) (random : Nat → Nat) (id : Nat)
    (s : Search)
    (hrun : prisonner_attempt_state fuel Boxes random freshPrisonner id = .ok s) :
    s.prisonner.visited.Nodup ∧ s.prisonner.visited.length ≤ 50 ∧
    s.prisonner.remainingAttempts + s.prisonner.visited.length
      = 50 + (if s.prisonner.success = true then 1 else 0) ∧
    (∀ (fuel' : Nat) (s0 s1 s2 : Search),
      s0.prisonner.remainingAttempts ≠ 0 → s0.prisonner.success = false →
      rerollLoop random fuel' s0 = .ok s1 → followLoop Boxes id fuel' s1 = .ok s2 →
      s1.prisonner = s0.prisonner ∧ s1.box_explore_id ∉ s0.prisonner.visited ∧
      ∃ more, s2.prisonner.visited = s0.prisonner.visited ++ s1.box_explore_id :: more) := by
  obtain ⟨hacc, _⟩ := attempt_state_accounted hrun
  refine ⟨hacc.1, hacc.length_le, hacc.2.1, ?_⟩
  intro fuel' s0 s1 s2 hrem hsucc h1 h2
  obtain ⟨e1, e2, _⟩ := rerollLoop_ok random fuel' s0 s1 h1
  refine ⟨e1, e2, ?_⟩
  rw [← e1]
  exact followLoop_opens_first Boxes id fuel' s1 s2 (by rw [e1]; exact hrem)
    (by rw [e1]; exact e2) (by rw [e1]; exact hsucc) h2

theorem restart_keeps_budget_witness :
    prisonner_attempt_state 51 constantBoxes (fun k => k + 2) freshPrisonner 1 =
        .ok { prisonner := { success := false, remainingAttempts := 0, visited := List.range 50 }
              box_explore_id := 1
              drawn := 48 } ∧
    ((List.range 50).Nodup ∧ (List.range 50).length ≤ 50 ∧
    0 + (List.range 50).length = 50 + (if false = true then 1 else 0) ∧
    (∀ (fuel' : Nat) (s0 s1 s2 : Search),
      s0.prisonner.remainingAttempts ≠ 0 → s0.prisonner.success = false →
      rerollLoop (fun k => k + 2) fuel' s0 = .ok s1 →
      followLoop constantBoxes 1 fuel' s1 = .ok s2 →
      s1.prisonner = s0.prisonner ∧ s1.box_explore_id ∉ s0.prisonner.visited ∧
      ∃ more, s2.prisonner.visited = s0.prisonner.visited ++ s1.box_explore_id :: more)) :=
  ⟨by rfl,
    restart_keeps_budget 51 constantBoxes (fun k => k + 2) 1
      { prisonner := { success := false, remainingAttempts := 0, visited := List.range 50 }
        box_explore_id := 1
        drawn := 48 } (by rfl)⟩

theorem cycleSearch_visited_length (B : List Nat) (id : Nat) :
    (cycleSearch B id).prisonner.visited.length ≤ 50 := by
  rw [cycleSearch_visited]
  unfold orbitPrefix
  simp only [List.length_map, List.length_range]
  exact Nat.min_le_right _ _

theorem sum_visited_le (l : List Prisonner) (h : ∀ p ∈ l, p.visited.length ≤ 50) :
    (l.map fun p => p.visited.length).sum ≤ 50 * l.length := by
  induction l with
  | nil => simp
  | cons p l ih =>
    have hp := h p (List.mem_cons_self p l)
    have := ih (fun q hq => h q (List.mem_cons_of_mem p hq))
    simp only [List.map_cons, List.sum_cons, List.length_cons]
    omega

/-- C13: on a drawer array `prisonner_attempt` returns for every identity and
every random engine with at most 50 drawers opened, and the trial returns with
100 records that together hold at most `50 * 100 = 5000` opened drawers. -/
theorem bounded_termination (Boxes : List Nat) (hperm : IsDrawerArray Boxes)
    (rng : Nat → Nat → Nat) (fuel : Nat) (hfuel : 52 ≤ fuel) :
    (∀ id, 1 ≤ id → id ≤ 100 → ∀ random : Nat → Nat,
      ∃ p, prisonner_attempt fuel Boxes random freshPrisonner id = .ok p ∧
        p.visited.length ≤ 50) ∧
    ∃ prisonners k, trial fuel Boxes rng = .ok (prisonners, k) ∧ prisonners.length = 100 ∧
      (∀ p ∈ prisonners, p.visited.length ≤ 50) ∧
      (prisonners.map fun p => p.visited.length).sum ≤ 5000 := by
  constructor
  · intro id h1 h2 random
    exact ⟨_, attempt_eq hperm h1 h2 random hfuel, cycleSearch_visited_length Boxes id⟩
  · have key : ∀ (ps : List Prisonner) (k : Nat), trial fuel Boxes rng = .ok (ps, k) →
        ps.length = 100 → (∀ p ∈ ps, p.visited.length ≤ 50) →
        ∃ prisonners k, trial fuel Boxes rng = .ok (prisonners, k) ∧ prisonners.length = 100 ∧
          (∀ p ∈ prisonners, p.visited.length ≤ 50) ∧
          (prisonners.map fun p => p.visited.length).sum ≤ 5000 := by
      intro ps k h1 h2 h3
      refine ⟨ps, k, h1, h2, h3, ?_⟩
      have := sum_visited_le ps h3
      rw [h2] at this
      exact this
    rcases first_long_cycle Boxes with hall | ⟨k, k1, k2, hk, hbefore⟩
    · refine key _ _ (trial_pass hperm rng hfuel hall) (by simp) ?_
      intro p hp
      obtain ⟨j, _, rfl⟩ := List.mem_map.mp hp
      exact cycleSearch_visited_length Boxes j
    · refine key _ _ (trial_stop hperm rng hfuel k1 k2 hk hbefore) (by simp; omega) ?_
      intro p hp
      rcases List.mem_append.mp hp with hp | hp
      · obtain ⟨j, _, rfl⟩ := List.mem_map.mp hp
        exact cycleSearch_visited_length Boxes j
      · rw [List.eq_of_mem_replicate hp]; simp

theorem bounded_termination_witness :
    IsDrawerArray longCycleBoxes ∧ 52 ≤ 52 ∧
    ((∀ id, 1 ≤ id → id ≤ 100 → ∀ random : Nat → Nat,
      ∃ p, prisonner_attempt 52 longCycleBoxes random freshPrisonner id = .ok p ∧
        p.visited.length ≤ 50) ∧
    ∃ prisonners k, trial 52 longCycleBoxes (fun _ _ => 0) = .ok (prisonners, k) ∧
      prisonners.length = 100 ∧
      (∀ p ∈ prisonners, p.visited.length ≤ 50) ∧
      (prisonners.map fun p => p.visited.length).sum ≤ 5000) :=
  ⟨by decide, by decide,
    bounded_termination longCycleBoxes (by decide) (fun _ _ => 0) 52 (by decide)⟩

theorem orbitPrefix_succ (B : List Nat) (s k : Nat) :
    orbitPrefix B s (k + 1) = orbitPrefix B s k ++ [(nextDrawer B)^[k] s] := by
  unfold orbitPrefix
  rw [List.range_succ, List.map_append, List.map_singleton]

theorem specSearchPolicy_step {B : List Nat} (h : IsDrawerArray B) {s : Nat} (hs : s < 100)
    (k a : Nat) :
    specSearchPolicy B (s + 1) (a + 1) ((nextDrawer B)^[k] s) (orbitPrefix B s k) =
      if (nextDrawer B)^[k + 1] s = s then (true, orbitPrefix B s (k + 1))
      else specSearchPolicy B (s + 1) a ((nextDrawer B)^[k + 1] s) (orbitPrefix B s (k + 1)) := by
  obtain ⟨l, hl, l1, l2⟩ := h.read (h.iterate_lt hs k)
  have hget : B.getD ((nextDrawer B)^[k] s) 0 = l := by
    rw [List.getD_eq_getElem?_getD, hl]; rfl
  have hnext : (nextDrawer B)^[k + 1] s = l - 1 := by
    rw [Function.iterate_succ_apply', nextDrawer_of_read hl]
  rw [specSearchPolicy, hget, ← orbitPrefix_succ, ← hnext]
  by_cases hfound : l = s + 1
  · have : (nextDrawer B)^[k + 1] s = s := by rw [hnext]; omega
    rw [if_pos hfound, if_pos this]
  · have : (nextDrawer B)^[k + 1] s ≠ s := by rw [hnext]; omega
    rw [if_neg hfound, if_neg this]

theorem specSearchPolicy_found {B : List Nat} (h : IsDrawerArray B) {s : Nat} (hs : s < 100)
    {L : Nat} (hret : (nextDrawer B)^[L] s = s)
    (hno : ∀ j, 1 ≤ j → j < L → (nextDrawer B)^[j] s ≠ s) :
    ∀ (a k : Nat), k < L → L ≤ k + a →
      specSearchPolicy B (s + 1) a ((nextDrawer B)^[k] s) (orbitPrefix B s k)
        = (true, orbitPrefix B s L) := by
  intro a
  induction a with
  | zero => intro k h1 h2; omega
  | succ a ih =>
    intro k h1 h2
    rw [specSearchPolicy_step h hs]
    rcases Nat.lt_or_ge (k + 1) L with hlt | hge
    · rw [if_neg (hno (k + 1) (by omega) hlt)]
      exact ih (k + 1) hlt (by omega)
    · have e : k + 1 = L := by omega
      subst e
      rw [if_pos hret]

theorem specSearchPolicy_exhaust {B : List Nat} (h : IsDrawerArray B) {s : Nat} (hs : s < 100) :
    ∀ (a k : Nat), (∀ j, 1 ≤ j → j ≤ k + a → (nextDrawer B)^[j] s ≠ s) →
      specSearchPolicy B (s + 1) a ((nextDrawer B)^[k] s) (orbitPrefix B s k)
        = (false, orbitPrefix B s (k + a)) := by
  intro a
  induction a with
  | zero => intro k _; simp [specSearchPolicy]
  | succ a ih =>
    intro k hno
    rw [specSearchPolicy_step h hs, if_neg (hno (k + 1) (by omega) (by omega))]
    have e : k + (a + 1) = k + 1 + a := by omega
    rw [e]
    exact ih (k + 1) (fun j j1 j2 => hno j j1 (by omega))

/-- On a drawer array the search of the code and the policy of the
specification agree on the success flag and on the visited drawers. -/
theorem cycleSearch_eq_spec {B : List Nat} (h : IsDrawerArray B) {id : Nat} (h1 : 1 ≤ id)
    (h2 : id ≤ 100) :
    ((cycleSearch B id).prisonner.success, (cycleSearch B id).prisonner.visited)
      = specSearchPolicy B id 50 (id - 1) [] := by
  obtain ⟨s, rfl⟩ : ∃ s, id = s + 1 := ⟨id - 1, by omega⟩
  have hs : s < 100 := by omega
  obtain ⟨c1, _, c3, c4⟩ := cycleLength_spec h hs
  have h0 : specSearchPolicy B (s + 1) 50 (s + 1 - 1) []
      = specSearchPolicy B (s + 1) 50 ((nextDrawer B)^[0] s) (orbitPrefix B s 0) := by
    simp [orbitPrefix]
  rw [h0, cycleSearch_visited]
  simp only [Nat.add_sub_cancel]
  by_cases hL : cycleLength B s ≤ 50
  · rw [specSearchPolicy_found h hs c3 c4 50 0 (by omega) (by omega),
      (cycleSearch_success B (s + 1)).mpr (by simpa using hL), Nat.min_eq_left hL]
  · have hf : (cycleSearch B (s + 1)).prisonner.success = false := by
      rw [← Bool.not_eq_true, cycleSearch_success]; simpa using hL
    rw [specSearchPolicy_exhaust h hs 50 0 (fun j j1 j2 => c4 j j1 (by omega)), hf,
      Nat.min_eq_right (by omega)]

/-! ### More fuel does not change a result -/

theorem rerollLoop_mono (random : Nat → Nat) :
    ∀ (fuel : Nat) (s r : Search), rerollLoop random fuel s = .ok r →
      rerollLoop random (fuel + 1) s = .ok r := by
  intro fuel
  induction fuel with
  | zero => intro s r h; simp [rerollLoop] at h
  | succ fuel ih =>
    intro s r h
    rw [rerollLoop] at h ⊢
    by_cases hv : s.box_explore_id ∈ s.prisonner.visited
    · rw [if_pos hv] at h ⊢; exact ih _ _ h
    · rw [if_neg hv] at h ⊢; exact h

theorem followLoop_mono (B : List Nat) (id : Nat) :
    ∀ (fuel : Nat) (s r : Search), followLoop B id fuel s = .ok r →
      followLoop B id (fuel + 1) s = .ok r := by
  intro fuel
  induction fuel with
  | zero => intro s r h; simp [followLoop] at h
  | succ fuel ih =>
    intro s r h
    rw [followLoop] at h ⊢
    by_cases hc : s.prisonner.remainingAttempts ≠ 0 ∧ s.box_explore_id ∉ s.prisonner.visited
        ∧ s.prisonner.success = false
    · rw [if_pos hc] at h ⊢
      cases hread : B[s.box_explore_id]? with
      | none => rw [hread] at h; exact absurd h (by simp)
      | some label =>
        rw [hread] at h
        simp only at h ⊢
        by_cases hl : label = id
        · rw [if_pos hl] at h ⊢; exact h
        · rw [if_neg hl] at h ⊢; exact ih _ _ h
    · rw [if_neg hc] at h ⊢; exact h

theorem attemptLoop_mono (B : List Nat) (random : Nat → Nat) (id : Nat) :
    ∀ (fuel : Nat) (s r : Search), attemptLoop B random id fuel s = .ok r →
      attemptLoop B random id (fuel + 1) s = .ok r := by
  intro fuel
  induction fuel with
  | zero => intro s r h; simp [attemptLoop] at h
  | succ fuel ih =>
    intro s r h
    rw [attemptLoop] at h ⊢
    by_cases hc : s.prisonner.remainingAttempts ≠ 0 ∧ s.prisonner.success = false
    · rw [if_pos hc] at h ⊢
      cases hr : rerollLoop random fuel s with
      | error e => rw [hr] at h; exact absurd h (by simp)
      | ok s1 =>
        rw [hr] at h
        rw [rerollLoop_mono random fuel s s1 hr]
        simp only at h ⊢
        cases hfl : followLoop B id fuel s1 with
        | error e => rw [hfl] at h; exact absurd h (by simp)
        | ok s2 =>
          rw [hfl] at h
          rw [followLoop_mono B id fuel s1 s2 hfl]
          simp only at h ⊢
          exact ih s2 r h
    · rw [if_neg hc] at h ⊢; exact h

theorem attempt_state_mono {B : List Nat} {random : Nat → Nat} {p : Prisonner} {id : Nat}
    {r : Search} :
    ∀ {fuel fuel' : Nat}, fuel ≤ fuel' →
      prisonner_attempt_state fuel B random p id = .ok r →
      prisonner_attempt_state fuel' B random p id = .ok r := by
  intro fuel fuel' hle h
  induction hle with
  | refl => exact h
  | step _ ih => exact attemptLoop_mono B random id _ _ r ih

/-- C16: on a drawer array the search of a fresh record returns without having
taken a single value from the random engine, so the body of the re-roll loop
(lines 92-95) is never executed (for no amount of fuel); the result is that of
the single-cycle policy of the specification. Hence a run that executes the
re-roll body is a run on an array that is not a bijection. -/
theorem restart_unreachable_on_permutations (Boxes : List Nat) (hperm : IsDrawerArray Boxes)
    (id : Nat) (h1 : 1 ≤ id) (h2 : id ≤ 100) (random : Nat → Nat) (fuel : Nat)
    (hfuel : 52 ≤ fuel) :
    ∃ s, prisonner_attempt_state fuel Boxes random freshPrisonner id = .ok s ∧
      s.drawn = 0 ∧
      (s.prisonner.success, s.prisonner.visited) = specSearchPolicy Boxes id 50 (id - 1) [] ∧
      ∀ (fuel' : Nat) (s' : Search),
        prisonner_attempt_state fuel' Boxes random freshPrisonner id = .ok s' → s'.drawn = 0 := by
  have hrun := attempt_state_eq hperm h1 h2 random hfuel
  have hdrawn : (cycleSearch Boxes id).drawn = 0 := by
    unfold cycleSearch; split <;> rfl
  refine ⟨_, hrun, hdrawn, cycleSearch_eq_spec hperm h1 h2, ?_⟩
  intro fuel' s' h'
  have e1 := attempt_state_mono (Nat.le_max_left fuel' 52) h'
  have e2 := attempt_state_eq hperm h1 h2 random (Nat.le_max_right fuel' 52)
  have e3 : prisonner_attempt_state (max fuel' 52) Boxes random freshPrisonner id
      = .ok (cycleSearch Boxes id) := e2
  rw [e1] at e3
  rw [Except.ok.inj e3]; exact hdrawn

set_option maxRecDepth 100000 in
theorem restart_unreachable_on_permutations_witness :
    IsDrawerArray longCycleBoxes ∧ 1 ≤ 7 ∧ 7 ≤ 100 ∧ 52 ≤ 52 ∧
    ∃ s, prisonner_attempt_state 52 longCycleBoxes (fun k => k) freshPrisonner 7 = .ok s ∧
      s.drawn = 0 ∧
      (s.prisonner.success, s.prisonner.visited) = specSearchPolicy longCycleBoxes 7 50 (7 - 1) [] ∧
      ∀ (fuel' : Nat) (s' : Search),
        prisonner_attempt_state fuel' longCycleBoxes (fun k => k) freshPrisonner 7 = .ok s' →
          s'.drawn = 0 :=
  ⟨by decide, by decide, by decide, by decide,
    restart_unreachable_on_permutations longCycleBoxes (by decide) 7 (by decide) (by decide)
      (fun k => k) 52 (by decide)⟩

/-- A cycle of more than 50 drawers passes through one of the drawers 0..49. -/
theorem long_cycle_has_small {B : List Nat} (h : IsDrawerArray B) {s : Nat} (hs : s < 100)
    (hL : 50 < cycleLength B s) : ∃ t, t < 50 ∧ OnCycle B s t := by
  by_contra hne
  have hall : ∀ t, OnCycle B s t → 50 ≤ t := by
    intro t ht
    by_contra hlt
    exact hne ⟨t, by omega, ht⟩
  have hsub : ((Finset.range (cycleLength B s)).image fun j => (nextDrawer B)^[j] s)
      ⊆ Finset.Ico 50 100 := by
    intro x hx
    obtain ⟨j, _, rfl⟩ := Finset.mem_image.mp hx
    exact Finset.mem_Ico.mpr ⟨hall _ ⟨j, rfl⟩, h.iterate_lt hs j⟩
  have hc := Finset.card_le_card hsub
  rw [orbit_card h hs, Nat.card_Ico] at hc
  omega

/-- The first prisoner with a long cycle has an identity of at most 50. -/
theorem first_long_le_50 {B : List Nat} (h : IsDrawerArray B) {k : Nat} (k1 : 1 ≤ k)
    (k2 : k ≤ 100) (hk : 50 < cycleLength B (k - 1))
    (hbefore : ∀ j, 1 ≤ j → j < k → cycleLength B (j - 1) ≤ 50) : k ≤ 50 := by
  obtain ⟨t, ht, hon⟩ := long_cycle_has_small h (by omega : k - 1 < 100) hk
  by_contra hgt
  have := hbefore (t + 1) (by omega) (by omega)
  rw [Nat.add_sub_cancel, cycleLength_onCycle h (by omega) hon] at this
  omega

/-- One run with admissible shuffle draws, with the bound 50 on the ordinal. -/
theorem runBody_cases_small {e : Entropy} (hadm : AdmissibleDraws e.shuffle) {w : Sim}
    (hlen : w.Boxes.length = 100) (run : Nat) {fuel : Nat} (hf : 52 ≤ fuel) :
    ∃ B, IsDrawerArray B ∧
      (runBody fuel e run w =
          .ok { Boxes := B
                counters := { w.counters with success_runs := w.counters.success_runs + 1 }
                out := w.out ++ [Line.success run] } ∨
       ∃ k, 1 ≤ k ∧ k ≤ 50 ∧
        runBody fuel e run w =
          .ok { Boxes := B
                counters := { w.counters with
                  failed_runs := w.counters.failed_runs + 1
                  tries := w.counters.tries + k }
                out := w.out ++ [Line.failed run k] }) := by
  have hB := randomize_isDrawerArray hadm
  refine ⟨_, hB, ?_⟩
  unfold runBody
  rw [randomize_eq hadm hlen]
  simp only
  rcases first_long_cycle (shufflePicks e.shuffle 100 0 (List.range' 1 100)) with
    hall | ⟨k, k1, k2, hk, hbefore⟩
  · left
    exact trialBody_pass (w := { w with Boxes := _ }) hB e.search run hf hall
  · right
    exact ⟨k, k1, first_long_le_50 hB k1 k2 hk hbefore,
      trialBody_stop (w := { w with Boxes := _ }) hB e.search run hf k1 k2 hk hbefore⟩

theorem runLoop_tries_bounds (entropy : Nat → Entropy)
    (hadm : ∀ r, AdmissibleDraws (entropy r).shuffle) {fuel : Nat} (hf : 52 ≤ fuel) :
    ∀ n, ∃ w, runLoop fuel entropy n 1 {} = .ok w ∧ w.Boxes.length = 100 ∧
      w.counters.failed_runs ≤ w.counters.tries ∧
      w.counters.tries ≤ 50 * w.counters.failed_runs := by
  intro n
  induction n with
  | zero => exact ⟨{}, rfl, by simp, le_rfl, by simp⟩
  | succ n ih =>
    obtain ⟨w, hw, hlen, h1, h2⟩ := ih
    rw [runLoop_succ, hw]
    simp only
    obtain ⟨B, hB, hcase | ⟨k, k1, k2, hcase⟩⟩ :=
      runBody_cases_small (hadm (1 + n)) hlen (1 + n) hf
    · exact ⟨_, hcase, hB.length_eq, h1, h2⟩
    · refine ⟨_, hcase, hB.length_eq, ?_, ?_⟩
      · simp only; omega
      · simp only; omega

/-- C17: on a drawer array the trial returns, and when it ends failed the
reported ordinal `k` (the final `prisonnerID`) satisfies `1 ≤ k ≤ 50`, since a
cycle of more than 50 drawers passes through one of the drawers 0..49; hence
after any number of runs (with admissible shuffle draws)
`failed_runs ≤ tries ≤ 50 * failed_runs`. -/
theorem failing_ordinal_le_50 (Boxes : List Nat) (hperm : IsDrawerArray Boxes)
    (rng : Nat → Nat → Nat) (entropy : Nat → Entropy)
    (hadm : ∀ r, AdmissibleDraws (entropy r).shuffle) (fuel : Nat) (hfuel : 52 ≤ fuel)
    (n : Nat) :
    (∃ prisonners k, trial fuel Boxes rng = .ok (prisonners, k) ∧
      (is_run_failed prisonners = true → 1 ≤ k ∧ k ≤ 50 ∧
        ∃ t, t < 50 ∧ OnCycle Boxes (k - 1) t ∧ 50 < cycleLength Boxes (k - 1))) ∧
    ∃ w, runLoop fuel entropy n 1 {} = .ok w ∧
      w.counters.failed_runs ≤ w.counters.tries ∧
      w.counters.tries ≤ 50 * w.counters.failed_runs := by
  constructor
  · rcases first_long_cycle Boxes with hall | ⟨k, k1, k2, hk, hbefore⟩
    · refine ⟨_, _, trial_pass hperm rng hfuel hall, ?_⟩
      intro hfail
      rw [is_run_failed_pass Boxes hall] at hfail
      exact absurd hfail (by simp)
    · refine ⟨_, _, trial_stop hperm rng hfuel k1 k2 hk hbefore, ?_⟩
      intro _
      obtain ⟨t, ht, hon⟩ := long_cycle_has_small hperm (by omega : k - 1 < 100) hk
      exact ⟨k1, first_long_le_50 hperm k1 k2 hk hbefore, t, ht, hon, hk⟩
  · obtain ⟨w, hw, _, h1, h2⟩ := runLoop_tries_bounds entropy hadm hfuel n
    exact ⟨w, hw, h1, h2⟩

set_option maxRecDepth 100000 in
theorem failing_ordinal_le_50_witness :
    IsDrawerArray longCycleBoxes ∧ (∀ r, AdmissibleDraws (zeroEntropy r).shuffle) ∧ 52 ≤ 52 ∧
    ((∃ prisonners k, trial 52 longCycleBoxes (fun _ _ => 0) = .ok (prisonners, k) ∧
      (is_run_failed prisonners = true → 1 ≤ k ∧ k ≤ 50 ∧
        ∃ t, t < 50 ∧ OnCycle longCycleBoxes (k - 1) t ∧
          50 < cycleLength longCycleBoxes (k - 1))) ∧
    ∃ w, runLoop 52 zeroEntropy 3 1 {} = .ok w ∧
      w.counters.failed_runs ≤ w.counters.tries ∧
      w.counters.tries ≤ 50 * w.counters.failed_runs) :=
  ⟨by decide, fun _ _ _ => Nat.zero_le _, by decide,
    failing_ordinal_le_50 longCycleBoxes (by decide) (fun _ _ => 0) zeroEntropy
      (fun _ _ _ => Nat.zero_le _) 52 (by decide) 3⟩

theorem DrawsInside.first_inside {random : Nat → Nat} {i todo size : Nat}
    (h : DrawsInside random i (todo + 1) size) : random i < size := by
  have := h 0 (by omega)
  simpa using this

theorem DrawsInside.rest_inside {random : Nat → Nat} {i todo size : Nat}
    (h : DrawsInside random i (todo + 1) size) : DrawsInside random (i + 1) todo (size - 1) := by
  intro j hj
  have := h (j + 1) (by omega)
  have e : i + 1 + j = i + (j + 1) := by omega
  rw [e]; omega

theorem drawsInside_of_admissible {random : Nat → Nat} (h : AdmissibleDraws random) {i : Nat}
    (hi : i ≤ 100) : DrawsInside random 0 i 100 := by
  intro j hj
  have := h j (by omega)
  rw [Nat.zero_add]; omega

/-- The first `n + m` iterations of the shuffle loop are its first `n`
iterations followed by `m` more. -/
theorem shuffleLoop_add (random : Nat → Nat) (m : Nat) :
    ∀ (n i : Nat) (Bx pool : List Nat),
      shuffleLoop random (n + m) i Bx pool =
        match shuffleLoop random n i Bx pool with
        | .error err => .error err
        | .ok r => shuffleLoop random m (i + n) r.1 r.2 := by
  intro n
  induction n with
  | zero => intro i Bx pool; simp [shuffleLoop]
  | succ n ih =>
    intro i Bx pool
    have e : n + 1 + m = (n + m) + 1 := by omega
    rw [e, shuffleLoop, shuffleLoop]
    cases hread : pool[u8 (random i)]? with
    | none => rfl
    | some label =>
      simp only
      rw [ih]
      have e2 : i + 1 + n = i + (n + 1) := by omega
      rw [e2]

/-- With draws inside the pool, the first `todo` iterations of the shuffle loop
store the picked labels and leave the rest of the pool. -/
theorem shuffleLoop_prefix (random : Nat → Nat) :
    ∀ (todo i : Nat) (Bx pool : List Nat), i + todo ≤ Bx.length → pool.length ≤ 256 →
      DrawsInside random i todo pool.length →
      shuffleLoop random todo i Bx pool =
        .ok (Bx.take i ++ shufflePicks random todo i pool ++ Bx.drop (i + todo),
          shuffleRest random todo i pool) := by
  intro todo
  induction todo with
  | zero =>
    intro i Bx pool _ _ _
    simp [shuffleLoop, shufflePicks, shuffleRest]
  | succ todo ih =>
    intro i Bx pool hlen h256 hin
    have hlt : random i < pool.length := hin.first_inside
    have hu : u8 (random i) = random i := u8_of_lt (by omega)
    rw [shuffleLoop]
    simp only [hu, List.getElem?_eq_getElem hlt]
    have hin' : DrawsInside random (i + 1) todo (pool.eraseIdx (random i)).length := by
      rw [List.length_eraseIdx_of_lt hlt]; exact hin.rest_inside
    rw [ih (i + 1) (Bx.set i pool[random i]) (pool.eraseIdx (random i))
      (by simp; omega) (by rw [List.length_eraseIdx_of_lt hlt]; omega) hin']
    rw [set_take_drop _ _ _ Bx i (by omega)]
    rw [shufflePicks, shuffleRest, List.getD_eq_getElem _ _ hlt]

theorem shuffleRest_sublist (random : Nat → Nat) :
    ∀ (todo i : Nat) (pool : List Nat), (shuffleRest random todo i pool).Sublist pool := by
  intro todo
  induction todo with
  | zero => intro i pool; exact List.Sublist.refl _
  | succ todo ih =>
    intro i pool
    rw [shuffleRest]
    exact (ih (i + 1) _).trans (List.eraseIdx_sublist _ _)

theorem shuffleRest_length (random : Nat → Nat) :
    ∀ (todo i : Nat) (pool : List Nat), DrawsInside random i todo pool.length →
      (shuffleRest random todo i pool).length = pool.length - todo := by
  intro todo
  induction todo with
  | zero => intro i pool _; simp [shuffleRest]
  | succ todo ih =>
    intro i pool hin
    have hlt : random i < pool.length := hin.first_inside
    have hin' : DrawsInside random (i + 1) todo (pool.eraseIdx (random i)).length := by
      rw [List.length_eraseIdx_of_lt hlt]; exact hin.rest_inside
    rw [shuffleRest, ih _ _ hin', List.length_eraseIdx_of_lt hlt]
    omega

theorem shuffle_picks_rest_perm (random : Nat → Nat) :
    ∀ (todo i : Nat) (pool : List Nat), DrawsInside random i todo pool.length →
      (shufflePicks random todo i pool ++ shuffleRest random todo i pool).Perm pool := by
  intro todo
  induction todo with
  | zero => intro i pool _; simp [shufflePicks, shuffleRest]
  | succ todo ih =>
    intro i pool hin
    have hlt : random i < pool.length := hin.first_inside
    have hin' : DrawsInside random (i + 1) todo (pool.eraseIdx (random i)).length := by
      rw [List.length_eraseIdx_of_lt hlt]; exact hin.rest_inside
    rw [shufflePicks, shuffleRest, List.getD_eq_getElem _ _ hlt, List.cons_append]
    exact ((ih (i + 1) _ hin').cons _).trans (perm_pick_eraseIdx pool _ hlt)

/-- C19: with admissible draws, at the start of iteration `i` (`i = 0..99`, and
`i = 100` for the end of the loop) of `randomize_box_labels` the pool
`labels_avail` holds exactly the `100 - i` labels of 1..100 that are not in
`Boxes[0..i-1]`, in increasing order; for `i < 100` it is not empty and every
draw in `[0, size - 1]` lands on an element; it is empty exactly when `i = 100`. -/
theorem pool_invariant (random : Nat → Nat) (hadm : AdmissibleDraws random)
    (Boxes : List Nat) (hlen : Boxes.length = 100) (i : Nat) (hi : i ≤ 100) :
    ∃ Bx pool, shuffleLoop random i 0 Boxes (List.range' 1 100) = .ok (Bx, pool) ∧
      pool.length = 100 - i ∧
      pool.Pairwise (· < ·) ∧
      (∀ l, l ∈ pool ↔ (1 ≤ l ∧ l ≤ 100 ∧ l ∉ Bx.take i)) ∧
      (i < 100 → 1 ≤ pool.length ∧ ∀ d, d ≤ pool.length - 1 → ∃ l, pool[d]? = some l) ∧
      (pool = [] ↔ i = 100) := by
  have hin : DrawsInside random 0 i (List.range' 1 100).length := by
    simpa using drawsInside_of_admissible hadm hi
  have hrun := shuffleLoop_prefix random i 0 Boxes (List.range' 1 100) (by omega) (by simp) hin
  have hl := shuffleRest_length random i 0 (List.range' 1 100) hin
  have hperm := shuffle_picks_rest_perm random i 0 (List.range' 1 100) hin
  have hsub := shuffleRest_sublist random i 0 (List.range' 1 100)
  simp only [List.length_range'] at hl
  have htake : (List.take 0 Boxes ++ shufflePicks random i 0 (List.range' 1 100)
      ++ List.drop (0 + i) Boxes).take i = shufflePicks random i 0 (List.range' 1 100) := by
    simp only [List.take_zero, List.nil_append]
    rw [List.take_append_of_le_length (by rw [shufflePicks_length])]
    exact List.take_of_length_le (by rw [shufflePicks_length])
  refine ⟨_, _, hrun, hl, (List.pairwise_lt_range' 1 100).sublist hsub, ?_, ?_, ?_⟩
  · intro l
    rw [htake]
    have hnd : (shufflePicks random i 0 (List.range' 1 100)
        ++ shuffleRest random i 0 (List.range' 1 100)).Nodup :=
      hperm.nodup_iff.mpr (List.nodup_range' 1 100)
    have hmem : l ∈ shufflePicks random i 0 (List.range' 1 100)
        ++ shuffleRest random i 0 (List.range' 1 100) ↔ 1 ≤ l ∧ l ≤ 100 := by
      rw [hperm.mem_iff, List.mem_range'_1]; omega
    constructor
    · intro hl'
      have h1 := hmem.mp (List.mem_append_right _ hl')
      exact ⟨h1.1, h1.2, fun hp => List.disjoint_of_nodup_append hnd hp hl'⟩
    · rintro ⟨h1, h2, h3⟩
      rcases List.mem_append.mp (hmem.mpr ⟨h1, h2⟩) with hp | hr
      · exact absurd hp h3
      · exact hr
  · intro hlt
    refine ⟨by omega, fun d hd => ?_⟩
    have hd' : d < (shuffleRest random i 0 (List.range' 1 100)).length := by omega
    exact ⟨_, List.getElem?_eq_getElem hd'⟩
  · rw [← List.length_eq_zero, hl]; omega

theorem pool_invariant_witness :
    AdmissibleDraws (fun _ => 0) ∧ (List.replicate 100 0).length = 100 ∧ 3 ≤ 100 ∧
    ∃ Bx pool, shuffleLoop (fun _ => 0) 3 0 (List.replicate 100 0) (List.range' 1 100)
        = .ok (Bx, pool) ∧
      pool.length = 100 - 3 ∧
      pool.Pairwise (· < ·) ∧
      (∀ l, l ∈ pool ↔ (1 ≤ l ∧ l ≤ 100 ∧ l ∉ Bx.take 3)) ∧
      (3 < 100 → 1 ≤ pool.length ∧ ∀ d, d ≤ pool.length - 1 → ∃ l, pool[d]? = some l) ∧
      (pool = [] ↔ 3 = 100) :=
  ⟨fun _ _ => Nat.zero_le _, by simp, by decide,
    pool_invariant (fun _ => 0) (fun _ _ => Nat.zero_le _) (List.replicate 100 0) (by simp) 3
      (by decide)⟩

/-- The trial loop, whatever the array holds and however it ends: the records
behind the iterator stay as they are, and every other record is either
untouched or what its own call of `prisonner_attempt` returned. -/
theorem trialLoop_shape (fuel : Nat) (B : List Nat) (rng : Nat → Nat → Nat) :
    ∀ (rest seen : List Prisonner) (id : Nat) (r : List Prisonner) (k : Nat),
      id + rest.length ≤ 255 →
      trialLoop fuel B rng seen rest id = .ok (r, k) →
      ∃ tail, r = seen ++ tail ∧ tail.length = rest.length ∧
        ∀ i p, rest[i]? = some p →
          tail[i]? = some p ∨
          ∃ q, prisonner_attempt fuel B (rng (seen.length + i)) p (id + i) = .ok q ∧
            tail[i]? = some q := by
  intro rest
  induction rest with
  | nil =>
    intro seen id r k _ hrun
    simp only [trialLoop, Except.ok.injEq, Prod.mk.injEq] at hrun
    exact ⟨[], by simp [hrun.1], rfl, fun i p hp => by simp at hp⟩
  | cons p0 rest ih =>
    intro seen id r k hlen hrun
    rw [trialLoop] at hrun
    cases hatt : prisonner_attempt fuel B (rng seen.length) p0 id with
    | error e => rw [hatt] at hrun; exact absurd hrun (by simp)
    | ok p1 =>
      rw [hatt] at hrun
      simp only at hrun
      by_cases hs : p1.success = false
      · rw [if_pos hs] at hrun
        simp only [Except.ok.injEq, Prod.mk.injEq] at hrun
        obtain ⟨rfl, rfl⟩ := hrun
        refine ⟨p1 :: rest, rfl, by simp, ?_⟩
        intro i p hp
        cases i with
        | zero =>
          right
          simp only [List.getElem?_cons_zero, Option.some.injEq] at hp
          subst hp
          exact ⟨p1, by simpa using hatt, by simp⟩
        | succ i =>
          left
          simpa using hp
      · rw [if_neg hs] at hrun
        simp only [List.length_cons] at hlen
        rw [u8_of_lt (by omega)] at hrun
        obtain ⟨tail, hr, htl, hrec⟩ := ih (seen ++ [p1]) (id + 1) r k (by omega) hrun
        refine ⟨p1 :: tail, by simp [hr], by simp [htl], ?_⟩
        intro i p hp
        cases i with
        | zero =>
          right
          simp only [List.getElem?_cons_zero, Option.some.injEq] at hp
          subst hp
          exact ⟨p1, by simpa using hatt, by simp⟩
        | succ i =>
          have hp' : rest[i]? = some p := by simpa using hp
          have e1 : (seen ++ [p1]).length + i = seen.length + (i + 1) := by simp; omega
          have e2 : id + 1 + i = id + (i + 1) := by omega
          rcases hrec i p hp' with h1 | ⟨q, hq1, hq2⟩
          · left; simpa using h1
          · right
            rw [e1, e2] at hq1
            exact ⟨q, hq1, by simpa using hq2⟩

/-- After lines 134-159, for every array and random source, the array of the
state is unchanged and every one of the 100 records is either still fresh or
exactly what its own call of `prisonner_attempt` returned. -/
theorem trial_records_frame (fuel : Nat) (rng : Nat → Nat → Nat) (run : Nat) (w w' : Sim)
    (hrun : trialBody fuel rng run w = .ok w') :
    w'.Boxes = w.Boxes ∧
    ∃ prisonners k, trial fuel w.Boxes rng = .ok (prisonners, k) ∧ prisonners.length = 100 ∧
      ∀ i, i < 100 →
        prisonners[i]? = some freshPrisonner ∨
        ∃ q, prisonner_attempt fuel w.Boxes (rng i) freshPrisonner (i + 1) = .ok q ∧
          prisonners[i]? = some q := by
  unfold trialBody at hrun
  cases htr : trial fuel w.Boxes rng with
  | error e => rw [htr] at hrun; exact absurd hrun (by simp)
  | ok res =>
    obtain ⟨prisonners, k⟩ := res
    rw [htr] at hrun
    simp only at hrun
    constructor
    · by_cases hf : is_run_failed prisonners = true
      · rw [if_pos hf] at hrun
        rw [← Except.ok.inj hrun]
      · rw [if_neg hf] at hrun
        rw [← Except.ok.inj hrun]
    · refine ⟨prisonners, k, rfl, ?_⟩
      unfold trial at htr
      obtain ⟨tail, hr, htl, hrec⟩ :=
        trialLoop_shape fuel w.Boxes rng _ [] 1 prisonners k (by simp) htr
      simp only [List.nil_append] at hr
      subst hr
      simp only [List.length_replicate] at htl
      refine ⟨htl, fun i hi => ?_⟩
      have hfresh : (List.replicate 100 ({} : Prisonner))[i]? = some freshPrisonner := by
        rw [List.getElem?_replicate, if_pos hi]; rfl
      rcases hrec i freshPrisonner hfresh with h1 | ⟨q, hq1, hq2⟩
      · exact Or.inl h1
      · right
        have e : 1 + i = i + 1 := by omega
        simp only [List.length_nil, Nat.zero_add] at hq1
        rw [e] at hq1
        exact ⟨q, hq1, hq2⟩

theorem LabelsInRange.read_label {B : List Nat} (h : LabelsInRange B) {i : Nat} (hi : i < 100) :
    ∃ l, B[i]? = some l ∧ 1 ≤ l ∧ l ≤ 100 := by
  have hi' : i < B.length := by rw [h.1]; exact hi
  exact ⟨B[i], List.getElem?_eq_getElem hi', h.2 _ (List.getElem_mem hi')⟩

/-- With draws in `[0, 99]` the re-roll loop keeps the drawer index below 100. -/
theorem rerollLoop_index {random : Nat → Nat} (hr : ∀ k, random k ≤ 99) :
    ∀ (fuel : Nat) (s : Search), s.box_explore_id < 100 →
      (∃ s', rerollLoop random fuel s = .ok s' ∧ s'.box_explore_id < 100) ∨
      rerollLoop random fuel s = .error .outOfFuel := by
  intro fuel
  induction fuel with
  | zero => intro s _; right; rfl
  | succ fuel ih =>
    intro s hs
    rw [rerollLoop]
    by_cases hv : s.box_explore_id ∈ s.prisonner.visited
    · rw [if_pos hv]
      apply ih
      have := hr s.drawn
      simp only
      rw [u8_of_lt (by omega)]; omega
    · rw [if_neg hv]
      exact Or.inl ⟨s, rfl, hs⟩

theorem followLoop_safe {B : List Nat} (h : LabelsInRange B) (id : Nat) :
    ∀ (fuel : Nat) (s : Search), s.box_explore_id < 100 →
      SafeAgree (fun s' => s'.box_explore_id < 100)
        (followLoopChecked B id fuel s) (followLoop B id fuel s) := by
  intro fuel
  induction fuel with
  | zero => intro s _; right; exact ⟨rfl, rfl⟩
  | succ fuel ih =>
    intro s hs
    rw [followLoopChecked, followLoop]
    by_cases hc : s.prisonner.remainingAttempts ≠ 0 ∧ s.box_explore_id ∉ s.prisonner.visited
        ∧ s.prisonner.success = false
    · rw [if_pos hc, if_pos hc]
      obtain ⟨l, hl, l1, l2⟩ := h.read_label hs
      simp only [hl, if_neg (Nat.not_le.mpr hs)]
      by_cases hfound : l = id
      · rw [if_pos hfound, if_pos hfound]
        exact Or.inl ⟨_, rfl, rfl, hs⟩
      · rw [if_neg hfound, if_neg hfound, if_neg hc.1, if_neg (by omega : ¬ l = 0)]
        apply ih
        simp only
        rw [u8_pred l1 (by omega)]; omega
    · rw [if_neg hc, if_neg hc]
      exact Or.inl ⟨s, rfl, rfl, hs⟩

theorem attemptLoop_safe {B : List Nat} (h : LabelsInRange B) {random : Nat → Nat}
    (hr : ∀ k, random k ≤ 99) (id : Nat) :
    ∀ (fuel : Nat) (s : Search), s.box_explore_id < 100 →
      SafeAgree (fun _ => True)
        (attemptLoopChecked B random id fuel s) (attemptLoop B random id fuel s) := by
  intro fuel
  induction fuel with
  | zero => intro s _; right; exact ⟨rfl, rfl⟩
  | succ fuel ih =>
    intro s hs
    rw [attemptLoopChecked, attemptLoop]
    by_cases hc : s.prisonner.remainingAttempts ≠ 0 ∧ s.prisonner.success = false
    · rw [if_pos hc, if_pos hc]
      rcases rerollLoop_index hr fuel s hs with ⟨s1, h1, hs1⟩ | h1
      · rw [h1]
        simp only
        rcases followLoop_safe h id fuel s1 hs1 with ⟨s2, c2, u2, hs2⟩ | ⟨c2, u2⟩
        · rw [c2, u2]
          exact ih s2 hs2
        · rw [c2, u2]
          exact Or.inr ⟨rfl, rfl⟩
      · rw [h1]
        exact Or.inr ⟨rfl, rfl⟩
    · rw [if_neg hc, if_neg hc]
      exact Or.inl ⟨s, rfl, rfl, trivial⟩

theorem attempt_safe {B : List Nat} (h : LabelsInRange B) {random : Nat → Nat}
    (hr : ∀ k, random k ≤ 99) {id : Nat} (h1 : 1 ≤ id) (h2 : id ≤ 100) (fuel : Nat)
    (p : Prisonner) :
    SafeAgree (fun _ => True)
      (prisonner_attempt_checked fuel B random p id) (prisonner_attempt fuel B random p id) := by
  unfold prisonner_attempt_checked prisonner_attempt prisonner_attempt_state
  rw [if_neg (by omega : ¬ id = 0)]
  have hidx : u8 (id + 255) < 100 := by rw [u8_pred h1 (by omega)]; omega
  rcases attemptLoop_safe h hr id fuel
      { prisonner := p, box_explore_id := u8 (id + 255), drawn := 0 } hidx with
    ⟨s, c, u, _⟩ | ⟨c, u⟩
  · rw [c, u]; exact Or.inl ⟨_, rfl, rfl, trivial⟩
  · rw [c, u]; exact Or.inr ⟨rfl, rfl⟩

theorem trialLoop_safe {B : List Nat} (h : LabelsInRange B) {rng : Nat → Nat → Nat}
    (hr : ∀ c k, rng c k ≤ 99) (fuel : Nat) :
    ∀ (rest seen : List Prisonner) (id : Nat), 1 ≤ id → id + rest.length ≤ 101 →
      SafeAgree (fun r => 1 ≤ r.2 ∧ r.2 ≤ 101)
        (trialLoopChecked fuel B rng seen rest id) (trialLoop fuel B rng seen rest id) := by
  intro rest
  induction rest with
  | nil =>
    intro seen id h1 h2
    rw [trialLoopChecked, trialLoop]
    exact Or.inl ⟨_, rfl, rfl, h1, by simpa using h2⟩
  | cons p rest ih =>
    intro seen id h1 h2
    simp only [List.length_cons] at h2
    rw [trialLoopChecked, trialLoop]
    rcases attempt_safe h (hr seen.length) h1 (by omega) fuel p with ⟨p1, c, u, _⟩ | ⟨c, u⟩
    · rw [c, u]
      simp only
      by_cases hs : p1.success = false
      · rw [if_pos hs, if_pos hs]
        exact Or.inl ⟨_, rfl, rfl, h1, by omega⟩
      · rw [if_neg hs, if_neg hs, if_neg (by omega : ¬ 101 < id + 1), u8_of_lt (by omega)]
        exact ih _ (id + 1) (by omega) (by omega)
    · rw [c, u]
      exact Or.inr ⟨rfl, rfl⟩

/-- C18: for an array of 100 labels in `[1, 100]`, identities in 1..100 and
random draws in `[0, 99]`, whatever the fuel, the instrumented search and trial
never stop on a trap: no read of `Boxes` outside `0..99`, no `Boxes[i] - 1` or
`prisonnerID - 1` below 0, no decrement of `remainingAttempts` at 0, no
`prisonnerID` above 101. They end exactly as the model does (same value, or
both out of fuel), the model never reports an out-of-bounds read, and the final
`prisonnerID` of a trial lies in `1..101`. -/
theorem index_and_uint8_safety (Boxes : List Nat) (hlabels : LabelsInRange Boxes)
    (rng : Nat → Nat → Nat) (hr : ∀ c k, rng c k ≤ 99) (fuel : Nat) :
    (∀ id, 1 ≤ id → id ≤ 100 → ∀ c,
      ((∃ p, prisonner_attempt_checked fuel Boxes (rng c) freshPrisonner id = .ok p ∧
          prisonner_attempt fuel Boxes (rng c) freshPrisonner id = .ok p) ∨
        (prisonner_attempt_checked fuel Boxes (rng c) freshPrisonner id = .error .outOfFuel ∧
          prisonner_attempt fuel Boxes (rng c) freshPrisonner id = .error .outOfFuel)) ∧
      prisonner_attempt fuel Boxes (rng c) freshPrisonner id ≠ .error .outOfBounds) ∧
    ((∃ prisonners k, trialChecked fuel Boxes rng = .ok (prisonners, k) ∧
        trial fuel Boxes rng = .ok (prisonners, k) ∧ 1 ≤ k ∧ k ≤ 101) ∨
      (trialChecked fuel Boxes rng = .error .outOfFuel ∧
        trial fuel Boxes rng = .error .outOfFuel)) := by
  constructor
  · intro id h1 h2 c
    rcases attempt_safe hlabels (hr c) h1 h2 fuel freshPrisonner with ⟨p, hc, hu, _⟩ | ⟨hc, hu⟩
    · exact ⟨Or.inl ⟨p, hc, hu⟩, by rw [hu]; simp⟩
    · exact ⟨Or.inr ⟨hc, hu⟩, by rw [hu]; simp⟩
  · unfold trialChecked trial
    rcases trialLoop_safe hlabels hr fuel (List.replicate 100 {}) [] 1 le_rfl (by simp) with
      ⟨r, hc, hu, k1, k2⟩ | ⟨hc, hu⟩
    · exact Or.inl ⟨r.1, r.2, hc, hu, k1, k2⟩
    · exact Or.inr ⟨hc, hu⟩

theorem index_and_uint8_safety_witness :
    LabelsInRange constantBoxes ∧ (∀ c k, (fun (_ k : Nat) => k % 100) c k ≤ 99) ∧
    ((∀ id, 1 ≤ id → id ≤ 100 → ∀ c,
      ((∃ p, prisonner_attempt_checked 60 constantBoxes ((fun (_ k : Nat) => k % 100) c)
            freshPrisonner id = .ok p ∧
          prisonner_attempt 60 constantBoxes ((fun (_ k : Nat) => k % 100) c)
            freshPrisonner id = .ok p) ∨
        (prisonner_attempt_checked 60 constantBoxes ((fun (_ k : Nat) => k % 100) c)
            freshPrisonner id = .error .outOfFuel ∧
          prisonner_attempt 60 constantBoxes ((fun (_ k : Nat) => k % 100) c)
            freshPrisonner id = .error .outOfFuel)) ∧
      prisonner_attempt 60 constantBoxes ((fun (_ k : Nat) => k % 100) c) freshPrisonner id
        ≠ .error .outOfBounds) ∧
    ((∃ prisonners k, trialChecked 60 constantBoxes (fun _ k => k % 100) = .ok (prisonners, k) ∧
        trial 60 constantBoxes (fun _ k => k % 100) = .ok (prisonners, k) ∧ 1 ≤ k ∧ k ≤ 101) ∨
      (trialChecked 60 constantBoxes (fun _ k => k % 100) = .error .outOfFuel ∧
        trial 60 constantBoxes (fun _ k => k % 100) = .error .outOfFuel))) :=
  ⟨⟨rfl, by decide⟩, fun _ k => Nat.le_of_lt_succ (Nat.mod_lt k (by decide)),
    index_and_uint8_safety constantBoxes ⟨rfl, by decide⟩ (fun _ k => k % 100)
      (fun _ k => Nat.le_of_lt_succ (Nat.mod_lt k (by decide))) 60⟩

/-- On the array of twos with the draws `0, 1, 2, ...` the instrumented trial
returns: prisoner 1 uses up the budget through 50 distinct drawers. -/
theorem constantBoxes_trialChecked :
    trialChecked 60 constantBoxes (fun _ k => k % 100) =
      .ok ({ success := false, remainingAttempts := 0, visited := List.range 50 }
            :: List.replicate 99 freshPrisonner, 1) := by
  rfl

theorem store_read {mem : Memory} {it : Nat} (hit : it < mem.prisonners.length) (p : Prisonner) :
    (mem.store it p).prisonners[it]? = some p := by
  unfold Memory.store
  simp only
  rw [List.getElem?_set_self hit]

theorem store_store (mem : Memory) (it : Nat) (p q : Prisonner) :
    (mem.store it p).store it q = mem.store it q := by
  unfold Memory.store
  simp only [List.set_set]

theorem store_Boxes (mem : Memory) (it : Nat) (p : Prisonner) :
    (mem.store it p).Boxes = mem.Boxes := rfl

/-- The re-roll loop on the memory does what the by-value loop does to the
record at the iterator, and nothing else. -/
theorem rerollLoopMem_eq (random : Nat → Nat) (mem : Memory) {it : Nat}
    (hit : it < mem.prisonners.length) :
    ∀ (fuel : Nat) (t : Search),
      rerollLoopMem random it fuel (t.onMemory mem it) =
        match rerollLoop random fuel t with
        | .error e => .error e
        | .ok t' => .ok (t'.onMemory mem it) := by
  intro fuel
  induction fuel with
  | zero => intro t; rfl
  | succ fuel ih =>
    intro t
    rw [rerollLoopMem, rerollLoop]
    have hread : (t.onMemory mem it).mem.prisonners[it]? = some t.prisonner :=
      store_read hit _
    rw [hread]
    simp only
    by_cases hv : t.box_explore_id ∈ t.prisonner.visited
    · have hv' : (t.onMemory mem it).box_explore_id ∈ t.prisonner.visited := hv
      rw [if_pos hv, if_pos hv']
      exact ih { t with box_explore_id := u8 (random t.drawn), drawn := t.drawn + 1 }
    · have hv' : (t.onMemory mem it).box_explore_id ∉ t.prisonner.visited := hv
      rw [if_neg hv, if_neg hv']

/-- The follow loop on the memory does what the by-value loop does to the
record at the iterator, reads the same array, and stores nothing else. -/
theorem followLoopMem_eq (mem : Memory) {it : Nat} (hit : it < mem.prisonners.length)
    (id : Nat) :
    ∀ (fuel : Nat) (t : Search),
      followLoopMem it id fuel (t.onMemory mem it) =
        match followLoop mem.Boxes id fuel t with
        | .error e => .error e
        | .ok t' => .ok (t'.onMemory mem it) := by
  intro fuel
  induction fuel with
  | zero => intro t; rfl
  | succ fuel ih =>
    intro t
    rw [followLoopMem, followLoop]
    have hread : (t.onMemory mem it).mem.prisonners[it]? = some t.prisonner :=
      store_read hit _
    rw [hread]
    simp only
    by_cases hc : t.prisonner.remainingAttempts ≠ 0 ∧ t.box_explore_id ∉ t.prisonner.visited
        ∧ t.prisonner.success = false
    · have hc' : t.prisonner.remainingAttempts ≠ 0 ∧
          (t.onMemory mem it).box_explore_id ∉ t.prisonner.visited ∧
          t.prisonner.success = false := hc
      rw [if_pos hc, if_pos hc']
      have hB : ((t.onMemory mem it).mem.store it
          { t.prisonner with
            visited := t.prisonner.visited ++ [(t.onMemory mem it).box_explore_id] }).Boxes
          = mem.Boxes := rfl
      rw [hB]
      have hidx : (t.onMemory mem it).box_explore_id = t.box_explore_id := rfl
      rw [hidx]
      cases hlab : mem.Boxes[t.box_explore_id]? with
      | none => rfl
      | some label =>
        simp only
        by_cases hl : label = id
        · rw [if_pos hl, if_pos hl]
          simp only [Search.onMemory, store_store]
        · rw [if_neg hl, if_neg hl]
          have key := ih
            { t with
              prisonner :=
                { t.prisonner with
                  visited := t.prisonner.visited ++ [t.box_explore_id]
                  remainingAttempts := u8 (t.prisonner.remainingAttempts + 255) }
              box_explore_id := u8 (label + 255) }
          simp only [Search.onMemory, store_store] at key ⊢
          exact key
    · have hc' : ¬ (t.prisonner.remainingAttempts ≠ 0 ∧
          (t.onMemory mem it).box_explore_id ∉ t.prisonner.visited ∧
          t.prisonner.success = false) := hc
      rw [if_neg hc, if_neg hc']

/-- The outer loop on the memory does what the by-value loop does to the record
at the iterator, and nothing else. -/
theorem attemptLoopMem_eq (random : Nat → Nat) (mem : Memory) {it : Nat}
    (hit : it < mem.prisonners.length) (id : Nat) :
    ∀ (fuel : Nat) (t : Search),
      attemptLoopMem random it id fuel (t.onMemory mem it) =
        match attemptLoop mem.Boxes random id fuel t with
        | .error e => .error e
        | .ok t' => .ok (t'.onMemory mem it) := by
  intro fuel
  induction fuel with
  | zero => intro t; rfl
  | succ fuel ih =>
    intro t
    rw [attemptLoopMem, attemptLoop]
    have hread : (t.onMemory mem it).mem.prisonners[it]? = some t.prisonner :=
      store_read hit _
    rw [hread]
    simp only
    by_cases hc : t.prisonner.remainingAttempts ≠ 0 ∧ t.prisonner.success = false
    · rw [if_pos hc, if_pos hc, rerollLoopMem_eq random mem hit fuel t]
      cases rerollLoop random fuel t with
      | error e => rfl
      | ok t1 =>
        simp only
        rw [followLoopMem_eq mem hit id fuel t1]
        cases followLoop mem.Boxes id fuel t1 with
        | error e => rfl
        | ok t2 =>
          simp only
          exact ih t2
    · rw [if_neg hc, if_neg hc]

theorem set_of_read {l : List Prisonner} :
    ∀ {i : Nat} {p : Prisonner}, l[i]? = some p → l.set i p = l := by
  induction l with
  | nil => intro i p h; simp at h
  | cons x l ih =>
    intro i p h
    cases i with
    | zero =>
      simp only [List.getElem?_cons_zero, Option.some.injEq] at h
      subst h; rfl
    | succ i =>
      simp only [List.getElem?_cons_succ] at h
      rw [List.set_cons_succ, ih h]

theorem store_same {mem : Memory} {it : Nat} {p : Prisonner}
    (hp : mem.prisonners[it]? = some p) : mem.store it p = mem := by
  unfold Memory.store
  rw [set_of_read hp]

/-- The call on the memory, when it returns, has replaced the record at the
iterator by the result of the by-value search and left the rest of the memory
as it was. -/
theorem prisonner_attempt_mem_eq (fuel : Nat) (random : Nat → Nat) (mem : Memory) (it : Nat)
    (id : Nat) {p : Prisonner} (hp : mem.prisonners[it]? = some p) :
    prisonner_attempt_mem fuel random mem it id =
      match prisonner_attempt fuel mem.Boxes random p id with
      | .error e => .error e
      | .ok p' => .ok (mem.store it p') := by
  have hit : it < mem.prisonners.length := (List.getElem?_eq_some.mp hp).1
  unfold prisonner_attempt_mem prisonner_attempt prisonner_attempt_state
  have h0 : ({ mem := mem, box_explore_id := u8 (id + 255), drawn := 0 } : MemSearch)
      = ({ prisonner := p, box_explore_id := u8 (id + 255), drawn := 0 } : Search).onMemory
          mem it := by
    simp only [Search.onMemory, store_same hp]
  rw [h0, attemptLoopMem_eq random mem hit id fuel]
  cases attemptLoop mem.Boxes random id fuel
      { prisonner := p, box_explore_id := u8 (id + 255), drawn := 0 } with
  | error e => rfl
  | ok t => rfl

theorem prisonner_attempt_mem_invalid (fuel : Nat) (random : Nat → Nat) (mem : Memory)
    (it : Nat) (id : Nat) (hp : mem.prisonners[it]? = none) (mem' : Memory) :
    prisonner_attempt_mem fuel random mem it id ≠ .ok mem' := by
  unfold prisonner_attempt_mem
  cases fuel with
  | zero => simp [attemptLoopMem]
  | succ fuel =>
    rw [attemptLoopMem]
    simp only [hp]
    intro h
    exact absurd h (by simp)

/-- The call on a list `seen ++ p :: rest` with the iterator at `p`, as the
trial loop makes it: only `p` is replaced. -/
theorem prisonner_attempt_mem_in_list (fuel : Nat) (random : Nat → Nat) (Boxes : List Nat)
    (seen rest : List Prisonner) (p : Prisonner) (id : Nat) :
    prisonner_attempt_mem fuel random { Boxes := Boxes, prisonners := seen ++ p :: rest }
        seen.length id =
      match prisonner_attempt fuel Boxes random p id with
      | .error e => .error e
      | .ok p' => .ok { Boxes := Boxes, prisonners := seen ++ p' :: rest } := by
  have hp : ({ Boxes := Boxes, prisonners := seen ++ p :: rest } : Memory).prisonners[seen.length]?
      = some p := by
    simp only
    rw [List.getElem?_append_right (Nat.le_refl _), Nat.sub_self, List.getElem?_cons_zero]
  rw [prisonner_attempt_mem_eq fuel random _ seen.length id hp]
  cases prisonner_attempt fuel Boxes random p id with
  | error e => rfl
  | ok p' => simp [Memory.store]

/-- C15: a call of `prisonner_attempt`, run on the memory it can reach (the
global array `Boxes` and the list of records its iterator points into), leaves
every entry of `Boxes` and every record other than the one at the iterator as
they were before the call; the record at the iterator becomes the result of the
search on its old value. -/
theorem attempt_frame (fuel : Nat) (random : Nat → Nat) (mem : Memory) (prisonner : Nat)
    (prisonnerID : Nat) (mem' : Memory)
    (hrun : prisonner_attempt_mem fuel random mem prisonner prisonnerID = .ok mem') :
    mem'.Boxes = mem.Boxes ∧
    mem'.prisonners.length = mem.prisonners.length ∧
    (∀ j, j ≠ prisonner → mem'.prisonners[j]? = mem.prisonners[j]?) ∧
    ∃ p p', mem.prisonners[prisonner]? = some p ∧
      prisonner_attempt fuel mem.Boxes random p prisonnerID = .ok p' ∧
      mem'.prisonners[prisonner]? = some p' := by
  cases hp : mem.prisonners[prisonner]? with
  | none => exact absurd hrun (prisonner_attempt_mem_invalid fuel random mem _ _ hp mem')
  | some p =>
    have hit : prisonner < mem.prisonners.length := (List.getElem?_eq_some.mp hp).1
    rw [prisonner_attempt_mem_eq fuel random mem prisonner prisonnerID hp] at hrun
    cases hby : prisonner_attempt fuel mem.Boxes random p prisonnerID with
    | error e => rw [hby] at hrun; exact absurd hrun (by simp)
    | ok p' =>
      rw [hby] at hrun
      obtain rfl := Except.ok.inj hrun
      refine ⟨rfl, by simp [Memory.store], ?_, p, p', rfl, hby, store_read hit p'⟩
      intro j hj
      simp only [Memory.store]
      exact List.getElem?_set_ne (Ne.symm hj)

theorem attempt_frame_witness :
    prisonner_attempt_mem 51 (fun k => k + 2)
        { Boxes := constantBoxes
          prisonners := [{ success := true, remainingAttempts := 7, visited := [3] },
            freshPrisonner, freshPrisonner] } 1 1 =
      .ok { Boxes := constantBoxes
            prisonners := [{ success := true, remainingAttempts := 7, visited := [3] },
              { success := false, remainingAttempts := 0, visited := List.range 50 },
              freshPrisonner] } ∧
    ((⟨constantBoxes, [⟨true, 7, [3]⟩, ⟨false, 0, List.range 50⟩, freshPrisonner]⟩ : Memory).Boxes
        = (⟨constantBoxes, [⟨true, 7, [3]⟩, freshPrisonner, freshPrisonner]⟩ : Memory).Boxes ∧
    (⟨constantBoxes, [⟨true, 7, [3]⟩, ⟨false, 0, List.range 50⟩, freshPrisonner]⟩ :
        Memory).prisonners.length
      = (⟨constantBoxes, [⟨true, 7, [3]⟩, freshPrisonner, freshPrisonner]⟩ :
          Memory).prisonners.length ∧
    (∀ j, j ≠ 1 →
      (⟨constantBoxes, [⟨true, 7, [3]⟩, ⟨false, 0, List.range 50⟩, freshPrisonner]⟩ :
          Memory).prisonners[j]?
        = (⟨constantBoxes, [⟨true, 7, [3]⟩, freshPrisonner, freshPrisonner]⟩ :
            Memory).prisonners[j]?) ∧
    ∃ p p',
      (⟨constantBoxes, [⟨true, 7, [3]⟩, freshPrisonner, freshPrisonner]⟩ :
          Memory).prisonners[1]? = some p ∧
      prisonner_attempt 51
          (⟨constantBoxes, [⟨true, 7, [3]⟩, freshPrisonner, freshPrisonner]⟩ : Memory).Boxes
          (fun k => k + 2) p 1 = .ok p' ∧
      (⟨constantBoxes, [⟨true, 7, [3]⟩, ⟨false, 0, List.range 50⟩, freshPrisonner]⟩ :
          Memory).prisonners[1]? = some p') :=
  ⟨by rfl,
    attempt_frame 51 (fun k => k + 2)
      ⟨constantBoxes, [⟨true, 7, [3]⟩, freshPrisonner, freshPrisonner]⟩ 1 1
      ⟨constantBoxes, [⟨true, 7, [3]⟩, ⟨false, 0, List.range 50⟩, freshPrisonner]⟩ (by rfl)⟩

end Prisoners
